import Mathlib

/-!
# Greenwald–Khanna quantile summary (`greenwald_khanna.h`)

A shallow embedding of the class `Greenwald_khanna<T>` and a verification of its
contract.

Modelling conventions.

* The template parameter `T` is a type with a linear order.
* `std::list<Tuple>` is a `List`, an iterator is an index into it, `end()` is the length.
* `long` and `int` are integers; an addition or subtraction on `long` is followed by
  `wrap_long`, the reduction modulo `2 ^ 64` into the range of `long`.
* A `double` is the fraction `num / den` it stands for (`den = 0` for a value that is not
  a number).  Every arithmetic operation on doubles rounds the exact result to the nearest
  double, ties to even, with a significand of 53 bits (`round_double`); the range of the
  exponent is not bounded (a product too large for a double is also too large for `long`,
  and converts alike).  A conversion of a double to `long` or `int` truncates; for a value
  outside the target type it gives the least value of the type, as the conversion
  instruction of x86-64 does.
* A run that leaves the behaviour defined by C++ through memory or control flow ends as
  `Outcome.undefined`, with the `Fault` that says how: a value-returning function left
  without a `return`, an iterator moved before `begin()`, an iterator used after `erase`,
  an index outside a vector, a division by zero.  A run that `std::vector` ends with the
  exception `std::length_error`, for a negative size, is recorded the same way.
* The members `min_value` and `max_value` are never read or written and are left out.
-/

namespace GK

/-- The nested `struct Tuple`. -/
structure Tuple (T : Type) where
  v : T
  g : Int
  delta : Int
  min_bounds : T
  max_bounds : T
deriving DecidableEq, Repr

/-- The constructor `Tuple(T v, long g, int delta)`: both bounds start at `v`. -/
def Tuple.new {T : Type} (v : T) (g : Int) (delta : Int) : Tuple T :=
  { v := v, g := g, delta := delta, min_bounds := v, max_bounds := v }

/-! ## Outcomes of a run -/

/-- The ways in which a run ends without a result: five kinds of undefined behaviour, and
the exception `std::length_error` of a vector constructed with a negative size. -/
inductive Fault where
  | no_return
  | invalid_iterator
  | erased_iterator
  | out_of_bounds
  | length_error
  | division_by_zero
deriving DecidableEq, Repr

/-- The outcome of running a method: it completes with a result, or the run reaches a
statement whose behaviour is undefined (or that throws) and ends there. -/
inductive Outcome (α : Type) where
  | done (a : α)
  | undefined (f : Fault)
deriving DecidableEq, Repr

/-- Sequencing: the second part runs on the result of the first, if there is one. -/
def Outcome.bind {α β : Type} (x : Outcome α) (f : α → Outcome β) : Outcome β :=
  match x with
  | Outcome.done a => f a
  | Outcome.undefined e => Outcome.undefined e

/-! ## Machine integers -/

/-- The constant `std::numeric_limits<int>::min()`. -/
def INT_MIN : Int := -2147483648

/-- The constant `std::numeric_limits<int>::max()`. -/
def INT_MAX : Int := 2147483647

/-- The constant `std::numeric_limits<long>::min()`. -/
def LONG_MIN : Int := -9223372036854775808

/-- The constant `std::numeric_limits<long>::max()`. -/
def LONG_MAX : Int := 9223372036854775807

/-- The value a `long` holds after an addition or subtraction whose exact result is `x`:
`x` modulo `2 ^ 64`, taken in the range `LONG_MIN .. LONG_MAX`. -/
def wrap_long (x : Int) : Int := (x + 9223372036854775808) % 18446744073709551616 - 9223372036854775808

/-! ## Doubles -/

/-- A `double`: the fraction `num / den`; `den = 0` marks a value that is not a number. -/
structure Double where
  num : Int
  den : Nat
deriving DecidableEq, Repr

/-- The rational number a double stands for. -/
def Double.value (x : Double) : ℚ := (x.num : ℚ) / (x.den : ℚ)

/-- The fraction is a number of the form `m * 2 ^ j` with `m ≤ 2 ^ 53`: a non-negative
number that a double holds exactly. -/
def Double.is_nonneg_double (x : Double) : Prop :=
  0 < x.den ∧ ∃ (m : Nat) (j : Int), m ≤ 2 ^ 53 ∧ x.value = (m : ℚ) * (2 : ℚ) ^ j

/-- The conversion of a small integer constant (`1`, `2`) to `double`, which is exact. -/
def Double.of_int (k : Int) : Double := ⟨k, 1⟩

/-- The number of binary digits of `n`, counted into `bits`; `fuel` bounds the steps. -/
def bit_length_aux : Nat → Nat → Nat → Nat
  | 0, _, bits => bits
  | fuel + 1, n, bits => if n = 0 then bits else bit_length_aux fuel (n / 2) (bits + 1)

/-- The number of binary digits of `n`. -/
def bit_length (n : Nat) : Nat := bit_length_aux n n 0

/-- The binary exponent of the positive fraction `p / q`: the `e` with
`2 ^ e ≤ p / q < 2 ^ (e + 1)`.  It is the difference of the bit lengths or one less; the
test `2 ^ e0 ≤ p / q` is made on natural numbers. -/
def floor_log2 (p q : Nat) : Int :=
  let e0 : Int := (bit_length p : Int) - (bit_length q : Int)
  if q * 2 ^ e0.toNat ≤ p * 2 ^ (-e0).toNat then e0 else e0 - 1

/-- The positive fraction `p / q` rounded to a significand of 53 bits, ties to even.  With
`s = 52 - e` the scaled fraction `N / D = (p / q) * 2 ^ s` lies in `[2 ^ 52, 2 ^ 53)`; it is
rounded to the nearest integer `m`, and the result is `m / 2 ^ s`, given as a fraction. -/
def round_pos (p q : Nat) : Nat × Nat :=
  let s : Int := 52 - floor_log2 p q
  let N : Nat := p * 2 ^ s.toNat
  let D : Nat := q * 2 ^ (-s).toNat
  let m : Nat := if D < 2 * (N % D) ∨ (2 * (N % D) = D ∧ N / D % 2 = 1) then N / D + 1 else N / D
  (m * 2 ^ (-s).toNat, 2 ^ s.toNat)

/-- The number that `round_pos` returns, as a rational. -/
def round_pos_value (p q : Nat) : ℚ := ((round_pos p q).1 : ℚ) / ((round_pos p q).2 : ℚ)

/-- The double nearest to the fraction `num / den`. -/
def round_double (num : Int) (den : Nat) : Double :=
  if den = 0 then ⟨0, 0⟩
  else if num = 0 then ⟨0, 1⟩
  else
    let r := round_pos num.natAbs den
    ⟨if num < 0 then -(r.1 : Int) else (r.1 : Int), r.2⟩

/-- The product `x * y` of two doubles. -/
def double_mul (x y : Double) : Double := round_double (x.num * y.num) (x.den * y.den)

/-- The quotient `x / y` of two doubles; a division by zero gives a value that no
conversion to an integer type can represent. -/
def double_div (x y : Double) : Double :=
  if y.den = 0 then ⟨0, 0⟩
  else if y.num < 0 then round_double (-(x.num * y.den)) (x.den * y.num.natAbs)
  else round_double (x.num * y.den) (x.den * y.num.natAbs)

/-- The difference `x - y` of two doubles. -/
def double_sub (x y : Double) : Double :=
  round_double (x.num * y.den - y.num * x.den) (x.den * y.den)

/-- The conversion of a `long` to `double`. -/
def long_to_double (n : Int) : Double := round_double n 1

/-- The function `floor` on doubles. -/
def double_floor (x : Double) : Double := if x.den = 0 then x else ⟨x.num / x.den, 1⟩

/-- The conversion of a double to `long`: truncation toward zero, and `LONG_MIN` for a
value that `long` cannot represent. -/
def double_to_long (x : Double) : Int :=
  if x.den ≠ 0 ∧ LONG_MIN ≤ Int.tdiv x.num x.den ∧ Int.tdiv x.num x.den ≤ LONG_MAX then
    Int.tdiv x.num x.den
  else LONG_MIN

/-- The conversion of a double to `int`: truncation toward zero, and `INT_MIN` for a value
that `int` cannot represent. -/
def double_to_int (x : Double) : Int :=
  if x.den ≠ 0 ∧ INT_MIN ≤ Int.tdiv x.num x.den ∧ Int.tdiv x.num x.den ≤ INT_MAX then
    Int.tdiv x.num x.den
  else INT_MIN

/-! ## The summary -/

/-- The data members of `Greenwald_khanna<T>`. -/
structure Greenwald_khanna (T : Type) where
  m_tuples : List (Tuple T)
  m_one_devide_2e : Int
  m_n : Int
  m_epsilon : Double
deriving DecidableEq, Repr

/-- The initialiser `m_one_devide_2e(1 / (2 * epsilon))`: the quotient is computed in
doubles and converted to `int`. -/
def one_devide_2e (epsilon : Double) : Int :=
  double_to_int (double_div (Double.of_int 1) (double_mul (Double.of_int 2) epsilon))

/-- The constructor `Greenwald_khanna(double epsilon)`, called with the double nearest to
`num / den` (the value of a literal such as `0.29`, or of the quotient `1.0 / 186`). -/
def Greenwald_khanna.new {T : Type} (num den : Nat) : Greenwald_khanna T :=
  { m_tuples := [], m_one_devide_2e := one_devide_2e (round_double num den), m_n := 0,
    m_epsilon := round_double num den }

/-- The accessor `n()`. -/
def Greenwald_khanna.n {T : Type} (s : Greenwald_khanna T) : Int := s.m_n

/-- The accessor `epsilon()`, as the rational number the stored double stands for. -/
def Greenwald_khanna.epsilon {T : Type} (s : Greenwald_khanna T) : ℚ := s.m_epsilon.value

/-- The local `long range = m_epsilon * m_n` of `query`. -/
def Greenwald_khanna.range {T : Type} (s : Greenwald_khanna T) : Int :=
  double_to_long (double_mul s.m_epsilon (long_to_double s.m_n))

/-- The double `2 * m_epsilon * m_n`, computed from left to right. -/
def Greenwald_khanna.two_eps_n_double {T : Type} (s : Greenwald_khanna T) : Double :=
  double_mul (double_mul (Double.of_int 2) s.m_epsilon) (long_to_double s.m_n)

/-- The local `long two_eps_n = 2 * m_epsilon * m_n` of `compress`. -/
def Greenwald_khanna.two_eps_n {T : Type} (s : Greenwald_khanna T) : Int :=
  double_to_long s.two_eps_n_double

/-- Sum of `g` over a list of tuples. -/
def sum_g {T : Type} (ts : List (Tuple T)) : Int := (ts.map Tuple.g).sum

/-! ## Band table -/

/-- Search for the least `alpha` with `p ≤ 2 ^ alpha`, at most `fuel` steps. -/
def ceil_log2_aux (p : Nat) : Nat → Nat → Nat
  | 0, alpha => alpha
  | fuel + 1, alpha => if p ≤ 2 ^ alpha then alpha else ceil_log2_aux p fuel (alpha + 1)

/-- The value `std::ceil(std::log2(two_eps_n))` stored in `long max_alpha`: the least
`alpha` with `p ≤ 2 ^ alpha`.  At `p = 0` the C++ value is `-inf`; the model gives `0`,
so that, as with any non-positive `max_alpha`, the loop of `create_bands` does not run. -/
def ceil_log2 (p : Nat) : Nat := ceil_log2_aux p p 0

/-- The expression `1 << k` on `int`: `2 ^ k` for a count `0 ≤ k ≤ 30`.  For any other
count C++ leaves the result undefined, and the model takes the value an x86 shift produces:
the count is masked to five bits, and bit `31` is the sign.  So `1 << (alpha - 1)` at
`alpha = 0` is `1 << 31`, the least 32-bit integer. -/
def shl_one (k : Int) : Int := if k % 32 = 31 then -2147483648 else 2 ^ (k % 32).toNat

/-- The vector after the inner loop
`for (long i = low_bound + 1; i <= high_bound; i++) bands[i] = alpha`: the entries at the
indices `low_bound + 1 .. high_bound` hold `alpha`.  An index past the end is no entry of
the vector; `pass_overflows` says when the loop writes at one. -/
def assign_band (bands : List Int) (low_bound high_bound : Int) (alpha : Nat) : List Int :=
  bands.enum.map fun ix =>
    if low_bound + 1 ≤ (ix.1 : Int) ∧ (ix.1 : Int) ≤ high_bound then (alpha : Int) else ix.2

/-- One iteration of the outer loop of `create_bands`. -/
def band_pass (p : Nat) (bands : List Int) (alpha : Nat) : List Int :=
  let two_to_alpha : Int := shl_one alpha
  let two_to_alpha_minus_one : Int := shl_one ((alpha : Int) - 1)
  let low_bound : Int := (p : Int) - two_to_alpha - Int.tmod p two_to_alpha
  let low_bound : Int := if low_bound < 0 then 0 else low_bound
  let high_bound : Int := (p : Int) - two_to_alpha_minus_one - Int.tmod p two_to_alpha_minus_one
  assign_band bands low_bound high_bound alpha

/-- The table of `create_bands(two_eps_n)`: a vector of `p + 1` zeros, then `bands[p] = 0`,
`bands[0] = LONG_MAX`, then one pass for each `alpha < max_alpha`.  This is what the entries
of the vector hold after the passes; whether the passes stay inside the vector is the
matter of `create_bands_checked`. -/
def create_bands (two_eps_n : Nat) : List Int :=
  let p := two_eps_n
  let max_alpha := ceil_log2 two_eps_n
  let bands := ((List.replicate (p + 1) (0 : Int)).set p 0).set 0 LONG_MAX
  (List.range max_alpha).foldl (band_pass p) bands

/-- The entry `bands[delta]` of a table (`0` when there is no such entry; the reads that
`compress` makes are checked by `band_read`). -/
def band_at (bands : List Int) (delta : Int) : Int := bands.getD delta.toNat 0

/-- The inner loop of pass `alpha` writes past a vector of `size` entries: it writes the
indices `low_bound + 1 .. high_bound`, so it leaves the vector when that range is not empty
and `high_bound` is not an index. -/
def pass_overflows (p size alpha : Nat) : Prop :=
  let two_to_alpha : Int := shl_one alpha
  let two_to_alpha_minus_one : Int := shl_one ((alpha : Int) - 1)
  let low_bound : Int := (p : Int) - two_to_alpha - Int.tmod p two_to_alpha
  let low_bound : Int := if low_bound < 0 then 0 else low_bound
  let high_bound : Int := (p : Int) - two_to_alpha_minus_one - Int.tmod p two_to_alpha_minus_one
  low_bound + 1 ≤ high_bound ∧ (size : Int) ≤ high_bound

instance (p size alpha : Nat) : Decidable (pass_overflows p size alpha) := by
  unfold pass_overflows; infer_instance

/-- One iteration of the outer loop of `create_bands`, with the writes `bands[i] = alpha`
checked against the size of the vector. -/
def band_pass_checked (p : Nat) (bands : List Int) (alpha : Nat) : Outcome (List Int) :=
  if pass_overflows p bands.length alpha then Outcome.undefined Fault.out_of_bounds
  else Outcome.done (band_pass p bands alpha)

/-- The function `create_bands(two_eps_n)` as `compress` runs it, with every access to the
vector checked.  For a negative `p + 1` the constructor of the vector throws
`std::length_error`; at `p = -1` the vector is empty and `bands[p] = 0` is outside it. -/
def create_bands_checked (two_eps_n : Int) : Outcome (List Int) :=
  if two_eps_n < -1 then Outcome.undefined Fault.length_error
  else if two_eps_n = -1 then Outcome.undefined Fault.out_of_bounds
  else
    let p := two_eps_n.toNat
    let max_alpha := ceil_log2 p
    let bands := ((List.replicate (p + 1) (0 : Int)).set p 0).set 0 LONG_MAX
    (List.range max_alpha).foldl
      (fun acc alpha => acc.bind fun bands => band_pass_checked p bands alpha)
      (Outcome.done bands)

/-- The read `bands[delta]` in `compress`, checked against the size of the vector. -/
def band_read (bands : List Int) (delta : Int) : Option Int :=
  if 0 ≤ delta then bands[delta.toNat]? else none

/-! ## Compression -/

/-- The body of the `if` in `compress` up to the call of `erase`: `next_it` takes over the
count of `it` and widens its bounds. -/
def absorb {T : Type} [LinearOrder T] (it next_it : Tuple T) : Tuple T :=
  { next_it with
    g := wrap_long (next_it.g + it.g)
    min_bounds := if next_it.min_bounds > it.min_bounds then it.min_bounds else next_it.min_bounds
    max_bounds := if next_it.max_bounds < it.max_bounds then it.max_bounds else next_it.max_bounds }

/-- The merge test of `compress` for the pair `(it, next_it)`, on the two band numbers read
from the table. -/
def can_absorb {T : Type} (band_it band_next : Int) (two_eps_n : Int) (it next_it : Tuple T) :
    Prop :=
  band_it ≤ band_next ∧ wrap_long (wrap_long (it.g + next_it.g) + next_it.delta) < two_eps_n

instance {T : Type} (band_it band_next : Int) (two_eps_n : Int) (it next_it : Tuple T) :
    Decidable (can_absorb band_it band_next two_eps_n it next_it) := by
  unfold can_absorb; infer_instance

/-- One iteration of the backward loop of `compress`, at the pair `(it, next_it)`.  Both
band numbers are read from the table.  When the test passes, `next_it` is rewritten
(`absorb`), `erase(it)` destroys the node of `it`, and the loop's `it--` then steps from
the erased iterator: the run ends there, whatever was written.  When the test fails the
list is as before. -/
def compress_step {T : Type} (bands : List Int) (two_eps_n : Int) (it next_it : Tuple T) :
    Outcome Unit :=
  match band_read bands it.delta, band_read bands next_it.delta with
  | some band_it, some band_next =>
    if can_absorb band_it band_next two_eps_n it next_it then
      Outcome.undefined Fault.erased_iterator
    else Outcome.done ()
  | _, _ => Outcome.undefined Fault.out_of_bounds

/-- The backward loop of `compress` over the tuples behind the first one: the pair at the
end of the list is visited first, the pair that starts at the second tuple of the summary
last; the loop stops before `begin()`. -/
def compress_loop {T : Type} (bands : List Int) (two_eps_n : Int) :
    List (Tuple T) → Outcome Unit
  | it :: next_it :: rest =>
    (compress_loop bands two_eps_n (next_it :: rest)).bind fun _ =>
      compress_step bands two_eps_n it next_it
  | _ => Outcome.done ()

/-- The method `compress()`.  On a list of fewer than two tuples `std::advance(it, -2)`
moves the iterator before `begin()`.  Otherwise the band table is built and the loop runs;
a run that completes has erased nothing and written nothing. -/
def compress {T : Type} (s : Greenwald_khanna T) : Outcome (Greenwald_khanna T) :=
  if s.m_tuples.length < 2 then Outcome.undefined Fault.invalid_iterator
  else
    (create_bands_checked s.two_eps_n).bind fun bands =>
      (compress_loop bands s.two_eps_n s.m_tuples.tail).bind fun _ => Outcome.done s

/-! ## Insertion -/

/-- The method `find_insert_iterator(value)`: the index of the first tuple with
`v >= value`.  When the loop ends without finding one, the C++ function ends without a
`return`: the result is `none`. -/
def find_insert_iterator {T : Type} [LinearOrder T] : List (Tuple T) → T → Option Nat
  | [], _ => none
  | t :: ts, value =>
    if t.v ≥ value then some 0 else (find_insert_iterator ts value).map (· + 1)

/-- The method `compute_delta(it)`, with the iterator given as an index:
`floor(2 * m_epsilon * m_n) - 1` is computed in doubles and converted to `int`. -/
def compute_delta {T : Type} (s : Greenwald_khanna T) (it : Nat) : Int :=
  if it ≠ 0 ∧ it ≠ s.m_tuples.length ∧ s.m_n > s.m_one_devide_2e then
    double_to_int (double_sub (double_floor s.two_eps_n_double) (Double.of_int 1))
  else 0

/-- The call `m_tuples.insert(it, t)`: `t` is placed before position `it`. -/
def list_insert {T : Type} (ts : List (Tuple T)) (it : Nat) (t : Tuple T) : List (Tuple T) :=
  ts.take it ++ t :: ts.drop it

/-- The second half of `insert`, after the optional `compress()`: the position is looked
up, the new tuple is placed and counted.  When `find_insert_iterator` ends without a
`return` there is no iterator to insert at. -/
def place {T : Type} [LinearOrder T] (s1 : Greenwald_khanna T) (value : T) :
    Outcome (Greenwald_khanna T) :=
  match find_insert_iterator s1.m_tuples value with
  | none => Outcome.undefined Fault.no_return
  | some it =>
    Outcome.done { s1 with
      m_tuples := list_insert s1.m_tuples it (Tuple.new value 1 (compute_delta s1 it))
      m_n := wrap_long (s1.m_n + 1) }

/-- The method `insert(value)`.  The guard `m_n > 0 && m_n % m_one_devide_2e == 0` divides
by the stored period whenever `m_n > 0`. -/
def insert {T : Type} [LinearOrder T] (s : Greenwald_khanna T) (value : T) :
    Outcome (Greenwald_khanna T) :=
  if s.m_n > 0 then
    if s.m_one_devide_2e = 0 then Outcome.undefined Fault.division_by_zero
    else if Int.tmod s.m_n s.m_one_devide_2e = 0 then (compress s).bind fun s1 => place s1 value
    else place s value
  else place s value

/-- A run of `insert` calls, in order. -/
def insert_all {T : Type} [LinearOrder T] (s : Greenwald_khanna T) (values : List T) :
    Outcome (Greenwald_khanna T) :=
  values.foldl (fun acc value => acc.bind fun s1 => insert s1 value) (Outcome.done s)

/-! ## Query -/

/-- The test of `query` at a tuple, `sum` being the running sum including the tuple. -/
def query_match {T : Type} (range rank sum : Int) (t : Tuple T) : Prop :=
  wrap_long (rank - sum) ≤ range ∧ wrap_long (wrap_long (sum + t.delta) - rank) ≤ range

instance {T : Type} (range rank sum : Int) (t : Tuple T) : Decidable (query_match range rank sum t) := by
  unfold query_match; infer_instance

/-- The loop of `query`, started with running sum `sum`; when the loop ends the function
is left without a `return`. -/
def query_loop {T : Type} (range rank : Int) : Int → List (Tuple T) → Outcome (Tuple T × Int)
  | _, [] => Outcome.undefined Fault.no_return
  | sum, t :: ts =>
    if query_match range rank (wrap_long (sum + t.g)) t then
      Outcome.done (t, wrap_long (sum + t.g))
    else query_loop range rank (wrap_long (sum + t.g)) ts

/-- The method `query(rank, low_bounds)`: the returned tuple and the value written to
`low_bounds`. -/
def query {T : Type} (s : Greenwald_khanna T) (rank : Int) : Outcome (Tuple T × Int) :=
  query_loop s.range rank 0 s.m_tuples

/-! ## Specification vocabulary -/

/-- The running sum of `g` over the tuples at positions `0..i`, as the loop of `query`
computes it in `long`, started at `sum`. -/
def running_sum_from {T : Type} (sum : Int) (ts : List (Tuple T)) (i : Nat) : Int :=
  (ts.take (i + 1)).foldl (fun acc t => wrap_long (acc + t.g)) sum

/-- The running sum `S_i` of `g` over the tuples at positions `0..i`, in `long`. -/
def running_sum {T : Type} (ts : List (Tuple T)) (i : Nat) : Int := running_sum_from 0 ts i

/-- The tuple at position `i` exists and passes the test of `query` for `rank`. -/
def matches_at {T : Type} (s : Greenwald_khanna T) (rank : Int) (i : Nat) : Prop :=
  ∃ t, s.m_tuples[i]? = some t ∧ query_match s.range rank (running_sum s.m_tuples i) t

/-- The test of `query` at position `i` as the specification words it: with the real
number `range = epsilon * n` and the sum `S_i` of `g` over the tuples `0..i`. -/
def matches_exactly_at {T : Type} (epsilon : ℚ) (s : Greenwald_khanna T) (rank : Int) (i : Nat) :
    Prop :=
  ∃ t, s.m_tuples[i]? = some t ∧
    ((rank : ℚ) - (sum_g (s.m_tuples.take (i + 1)) : ℚ) ≤ epsilon * (s.n : ℚ) ∧
     (sum_g (s.m_tuples.take (i + 1)) : ℚ) + (t.delta : ℚ) - (rank : ℚ) ≤ epsilon * (s.n : ℚ))

/-- The delta of a tuple placed inside the sequence as the specification words it:
`floor(2 * epsilon * n) - 1` on real numbers. -/
def spec_delta (epsilon : ℚ) (n : Int) : Int := ⌊2 * epsilon * (n : ℚ)⌋ - 1

/-- The tuples `(v, 1, 0)` for the values of a list: what exact bookkeeping stores. -/
def exact_tuples (values : List Int) : List (Tuple Int) := values.map fun v => Tuple.new v 1 0

/-- A summary in a given state: the epsilon and period that the constructor stores for
the double nearest to `num / den`, with the count `n` and the tuples `ts`. -/
def seeded (num den : Nat) (n : Int) (ts : List (Tuple Int)) : Greenwald_khanna Int :=
  { m_tuples := ts, m_one_devide_2e := one_devide_2e (round_double num den), m_n := n,
    m_epsilon := round_double num den }

/-- The integers `1, 2, ..., 1000` in ascending order. -/
def ascending_thousand : List Int := (List.range 1000).map fun (i : Nat) => (i : Int) + 1

/-- Every tuple has `min_bounds = v` and `max_bounds = v`. -/
def bounds_exact {T : Type} (ts : List (Tuple T)) : Prop :=
  ∀ t ∈ ts, t.min_bounds = t.v ∧ t.max_bounds = t.v

/-! ## Vocabulary for the band table -/

/-- The bound `lo` of band `alpha` in the band rule as the specification words it:
`max(0, capacity - 2^alpha - (capacity mod 2^alpha))`. -/
def spec_band_low (capacity alpha : Nat) : Int :=
  max 0 ((capacity : Int) - (2 ^ alpha : Nat) - (capacity % 2 ^ alpha : Nat))

/-- The bound `hi` of band `alpha` in the band rule as the specification words it:
`capacity - 2^(alpha-1) - (capacity mod 2^(alpha-1))`, and `capacity` for `alpha = 0`. -/
def spec_band_high (capacity alpha : Nat) : Int :=
  if alpha = 0 then (capacity : Int)
  else (capacity : Int) - (2 ^ (alpha - 1) : Nat) - (capacity % 2 ^ (alpha - 1) : Nat)

/-- The band rule as the specification words it: `delta` lies in band `alpha` when
`2^alpha ≤ capacity` and `lo < delta ≤ hi`. -/
def spec_in_band (capacity alpha : Nat) (delta : Int) : Prop :=
  2 ^ alpha ≤ capacity ∧ spec_band_low capacity alpha < delta ∧ delta ≤ spec_band_high capacity alpha

instance (capacity alpha : Nat) (delta : Int) : Decidable (spec_in_band capacity alpha delta) := by
  unfold spec_in_band; infer_instance

/-- The test under which pass `alpha` of `create_bands(p)` writes `bands[i]`:
`low_bound + 1 <= i <= high_bound`, with the bounds computed as in the loop body. -/
def pass_writes (p alpha i : Nat) : Prop :=
  let two_to_alpha : Int := shl_one alpha
  let two_to_alpha_minus_one : Int := shl_one ((alpha : Int) - 1)
  let low_bound : Int := (p : Int) - two_to_alpha - Int.tmod p two_to_alpha
  let low_bound : Int := if low_bound < 0 then 0 else low_bound
  let high_bound : Int := (p : Int) - two_to_alpha_minus_one - Int.tmod p two_to_alpha_minus_one
  low_bound + 1 ≤ (i : Int) ∧ (i : Int) ≤ high_bound

instance (p alpha i : Nat) : Decidable (pass_writes p alpha i) := by
  unfold pass_writes; infer_instance

/-- The cut `capacity - 2^alpha - (capacity mod 2^alpha)` between band `alpha` and band
`alpha + 1` of the band rule. -/
def spec_band_cut (capacity alpha : Nat) : Int :=
  (capacity : Int) - (2 ^ alpha : Nat) - (capacity % 2 ^ alpha : Nat)

/-! ## Summaries used as concrete inputs -/

/-- A summary with `epsilon = 0.29` and count `n`: two exact tuples and a third that
carries the rest of the count. -/
def summary_029 (n : Int) : Greenwald_khanna Int :=
  seeded 29 100 n [Tuple.new 1 1 0, Tuple.new 2 1 0, Tuple.new 3 (n - 2) 0]

/-- A summary with `epsilon = 0.072` (stored period `6`) and count `n`: an exact first
tuple and a second that carries the rest of the count. -/
def summary_072 (n : Int) : Greenwald_khanna Int :=
  seeded 72 1000 n [Tuple.new 1 1 0, Tuple.new 3 (n - 1) 0]

/-- A summary with `epsilon = 0.1` and count `20` in which exact bookkeeping has left four
tuples; the capacity is `4`. -/
def summary_01 : Greenwald_khanna Int :=
  seeded 1 10 20 [Tuple.new 1 1 0, Tuple.new 2 1 0, Tuple.new 3 1 0, Tuple.new 4 17 0]

/-! ## Outcomes -/

@[simp] theorem bind_done {α β : Type} (a : α) (f : α → Outcome β) :
    (Outcome.done a).bind f = f a := rfl

@[simp] theorem bind_undefined {α β : Type} (e : Fault) (f : α → Outcome β) :
    (Outcome.undefined e : Outcome α).bind f = Outcome.undefined e := rfl

theorem bind_eq_done {α β : Type} (x : Outcome α) (f : α → Outcome β) (b : β)
    (h : x.bind f = Outcome.done b) : ∃ a, x = Outcome.done a ∧ f a = Outcome.done b := by
  cases x with
  | done a => exact ⟨a, rfl, h⟩
  | undefined e => simp at h

/-- Once a run has left defined behaviour, no later call brings it back. -/
theorem foldl_bind_undefined {α β : Type} (f : α → β → Outcome α) (e : Fault) (l : List β) :
    l.foldl (fun acc b => acc.bind fun a => f a b) (Outcome.undefined e) = Outcome.undefined e := by
  induction l with
  | nil => rfl
  | cons b l ih => rw [List.foldl_cons, bind_undefined, ih]

/-! ## Lists and sums -/

@[simp] theorem sum_g_nil {T : Type} : sum_g ([] : List (Tuple T)) = 0 := rfl

@[simp] theorem sum_g_cons {T : Type} (t : Tuple T) (ts : List (Tuple T)) :
    sum_g (t :: ts) = t.g + sum_g ts := by
  simp [sum_g]

@[simp] theorem sum_g_append {T : Type} (l₁ l₂ : List (Tuple T)) :
    sum_g (l₁ ++ l₂) = sum_g l₁ + sum_g l₂ := by
  simp [sum_g]

theorem list_insert_append {T : Type} (pre post : List (Tuple T)) (t : Tuple T) :
    list_insert (pre ++ post) pre.length t = pre ++ t :: post := by
  simp [list_insert]

/-! ## The insertion position -/

section Position
variable {T : Type} [LinearOrder T]

/-- The loop of `find_insert_iterator` ends without a `return` when every tuple is below
the value. -/
theorem find_insert_iterator_of_all_lt (ts : List (Tuple T)) (value : T)
    (h : ∀ t ∈ ts, t.v < value) : find_insert_iterator ts value = none := by
  induction ts with
  | nil => rfl
  | cons t ts ih =>
    have ht : ¬ t.v ≥ value := not_le.mpr (h t (List.mem_cons_self _ _))
    simp only [find_insert_iterator, ht, if_false, Option.map_eq_none']
    exact ih fun u hu => h u (List.mem_cons_of_mem _ hu)

/-- A position returned by `find_insert_iterator` splits the list into the tuples below
`value` and a rest that starts with a tuple at or above `value`. -/
theorem find_insert_iterator_split (ts : List (Tuple T)) (value : T) (it : Nat)
    (h : find_insert_iterator ts value = some it) :
    ∃ pre t post, ts = pre ++ t :: post ∧ it = pre.length ∧
      (∀ u ∈ pre, u.v < value) ∧ value ≤ t.v := by
  induction ts generalizing it with
  | nil => simp [find_insert_iterator] at h
  | cons x xs ih =>
    by_cases hx : x.v ≥ value
    · simp only [find_insert_iterator, hx, if_true, Option.some.injEq] at h
      exact ⟨[], x, xs, rfl, by simp [← h], by simp, hx⟩
    · simp only [find_insert_iterator, hx, if_false, Option.map_eq_some'] at h
      obtain ⟨k, hk, rfl⟩ := h
      obtain ⟨pre, t, post, e, hlen, hpre, ht⟩ := ih k hk
      refine ⟨x :: pre, t, post, by rw [e]; rfl, by simp [hlen], ?_, ht⟩
      intro u hu
      rcases List.mem_cons.mp hu with rfl | hu
      · exact not_le.mp hx
      · exact hpre u hu

/-- A position is returned when some tuple is at or above the value. -/
theorem find_insert_iterator_of_mem (ts : List (Tuple T)) (value : T) (t : Tuple T)
    (ht : t ∈ ts) (hv : value ≤ t.v) : ∃ it, find_insert_iterator ts value = some it := by
  cases h : find_insert_iterator ts value with
  | some it => exact ⟨it, rfl⟩
  | none =>
    exfalso
    have key : ∀ (l : List (Tuple T)), find_insert_iterator l value = none →
        ∀ u ∈ l, u.v < value := by
      intro l
      induction l with
      | nil => intro _ u hu; simp at hu
      | cons x xs ih =>
        intro hn u hu
        by_cases hx : x.v ≥ value
        · simp [find_insert_iterator, hx] at hn
        · simp only [find_insert_iterator, hx, if_false, Option.map_eq_none'] at hn
          rcases List.mem_cons.mp hu with rfl | hu
          · exact not_le.mp hx
          · exact ih hn u hu
    exact absurd (key ts h t ht) (not_lt.mpr hv)

end Position

/-! ## The band table as `compress` builds it -/

theorem ceil_log2_aux_ge (p : Nat) (fuel alpha : Nat) : alpha ≤ ceil_log2_aux p fuel alpha := by
  induction fuel generalizing alpha with
  | zero => exact le_refl _
  | succ k ih =>
    unfold ceil_log2_aux
    split
    · exact le_refl _
    · exact le_trans (Nat.le_succ alpha) (ih (alpha + 1))

/-- From capacity `2` on the loop of `create_bands` runs at least the pass `alpha = 0`. -/
theorem ceil_log2_pos (p : Nat) (h : 2 ≤ p) : 1 ≤ ceil_log2 p := by
  unfold ceil_log2
  obtain ⟨k, rfl⟩ : ∃ k, p = k + 1 := ⟨p - 1, by omega⟩
  unfold ceil_log2_aux
  rw [if_neg (by simp; omega)]
  exact ceil_log2_aux_ge _ _ _

/-- The pass `alpha = 0`: `1 << (alpha - 1)` is `1 << -1`, `high_bound` comes out above
`p`, and the inner loop writes `bands[p + 1]`, past the end of the vector. -/
theorem band_pass_checked_zero (p : Nat) (bands : List Int) (h : bands.length = p + 1) :
    band_pass_checked p bands 0 = Outcome.undefined Fault.out_of_bounds := by
  unfold band_pass_checked
  rw [if_pos]
  unfold pass_overflows
  simp only []
  have e1 : shl_one ((0 : Nat) : Int) = 1 := by decide
  have e2 : shl_one (((0 : Nat) : Int) - 1) = -2147483648 := by decide
  rw [e1, e2, Int.tmod_one, Int.tmod_neg]
  have e3 : Int.tmod (p : Int) 2147483648 = ((p % 2147483648 : Nat) : Int) := rfl
  rw [e3, h]
  have hm := Nat.mod_lt p (show 0 < 2147483648 by decide)
  constructor
  · split <;> omega
  · push_cast; omega

theorem foldl_band_pass_checked_undefined (p : Nat) (e : Fault) (alphas : List Nat) :
    alphas.foldl (fun acc alpha => acc.bind fun bands => band_pass_checked p bands alpha)
      (Outcome.undefined e) = Outcome.undefined e :=
  foldl_bind_undefined (fun bands alpha => band_pass_checked p bands alpha) e alphas

/-- For every capacity from `2` on, `create_bands` writes outside its vector. -/
theorem create_bands_checked_undefined (two_eps_n : Int) (h : 2 ≤ two_eps_n) :
    create_bands_checked two_eps_n = Outcome.undefined Fault.out_of_bounds := by
  unfold create_bands_checked
  rw [if_neg (by omega), if_neg (by omega)]
  simp only []
  have hp : 2 ≤ two_eps_n.toNat := by omega
  obtain ⟨k, hk⟩ : ∃ k, ceil_log2 two_eps_n.toNat = k + 1 :=
    ⟨ceil_log2 two_eps_n.toNat - 1, by have := ceil_log2_pos _ hp; omega⟩
  rw [hk, List.range_succ_eq_map, List.foldl_cons, bind_done,
    band_pass_checked_zero _ _ (by simp), foldl_band_pass_checked_undefined]

/-- At capacity `0` and `1` the loop of `create_bands` does not run. -/
theorem create_bands_checked_small :
    create_bands_checked 0 = Outcome.done [LONG_MAX] ∧
    create_bands_checked 1 = Outcome.done [LONG_MAX, 0] := by
  decide

/-! ## What `compress` can return -/

section Compress
variable {T : Type}

/-- On fewer than two tuples `compress` moves its iterator before `begin()`. -/
theorem compress_short (s : Greenwald_khanna T) (h : s.m_tuples.length < 2) :
    compress s = Outcome.undefined Fault.invalid_iterator := by
  unfold compress
  rw [if_pos h]

/-- With two tuples or more and a capacity of `2` or more, `compress` ends in
`create_bands`, at the write past the end of the band table. -/
theorem compress_capacity (s : Greenwald_khanna T) (h : 2 ≤ s.m_tuples.length)
    (hc : 2 ≤ s.two_eps_n) : compress s = Outcome.undefined Fault.out_of_bounds := by
  unfold compress
  rw [if_neg (by omega), create_bands_checked_undefined _ hc, bind_undefined]

/-- A run of `compress` that completes returns the summary it was given. -/
theorem compress_eq_done (s s' : Greenwald_khanna T) (h : compress s = Outcome.done s') :
    s' = s := by
  unfold compress at h
  split at h
  · simp at h
  · obtain ⟨bands, _, h⟩ := bind_eq_done _ _ _ h
    obtain ⟨_, _, h⟩ := bind_eq_done _ _ _ h
    simp only [Outcome.done.injEq] at h
    exact h.symm

/-- A step of the loop at a pair that passes the merge test does not complete. -/
theorem compress_step_merge (bands : List Int) (two_eps_n : Int) (it next_it : Tuple T)
    (band_it band_next : Int) (h1 : band_read bands it.delta = some band_it)
    (h2 : band_read bands next_it.delta = some band_next)
    (h : can_absorb band_it band_next two_eps_n it next_it) :
    compress_step bands two_eps_n it next_it = Outcome.undefined Fault.erased_iterator := by
  unfold compress_step
  rw [h1, h2]
  simp only []
  rw [if_pos h]

/-- No step of the loop completes at a pair that passes the merge test. -/
theorem compress_step_done (bands : List Int) (two_eps_n : Int) (it next_it : Tuple T)
    (h : compress_step bands two_eps_n it next_it = Outcome.done ()) :
    ∃ band_it band_next, band_read bands it.delta = some band_it ∧
      band_read bands next_it.delta = some band_next ∧
      ¬ can_absorb band_it band_next two_eps_n it next_it := by
  unfold compress_step at h
  split at h
  · rename_i band_it band_next h1 h2
    refine ⟨band_it, band_next, h1, h2, ?_⟩
    intro hc
    rw [if_pos hc] at h
    simp at h
  · simp at h

end Compress

/-! ## What `insert` can return -/

theorem compute_delta_head {T : Type} (s : Greenwald_khanna T) : compute_delta s 0 = 0 := by
  unfold compute_delta
  rw [if_neg (by simp)]

theorem compute_delta_ramp_up {T : Type} (s : Greenwald_khanna T) (it : Nat)
    (h : s.m_n ≤ s.m_one_devide_2e) : compute_delta s it = 0 := by
  unfold compute_delta
  rw [if_neg (by intro hc; exact absurd hc.2.2 (not_lt.mpr h))]

theorem compute_delta_inside {T : Type} (s : Greenwald_khanna T) (it : Nat) (h0 : it ≠ 0)
    (h1 : it ≠ s.m_tuples.length) (h : s.m_one_devide_2e < s.m_n) :
    compute_delta s it
      = double_to_int (double_sub (double_floor s.two_eps_n_double) (Double.of_int 1)) := by
  unfold compute_delta
  rw [if_pos ⟨h0, h1, h⟩]

section Insert
variable {T : Type} [LinearOrder T]

/-- A value above every stored tuple has no position: `place` ends where
`find_insert_iterator` is left without a `return`. -/
theorem place_of_all_lt (s : Greenwald_khanna T) (value : T) (h : ∀ t ∈ s.m_tuples, t.v < value) :
    place s value = Outcome.undefined Fault.no_return := by
  unfold place
  rw [find_insert_iterator_of_all_lt _ _ h]

/-- A run of `place` that completes has found a position, and returns the summary with
the new tuple at that position and the count raised by one. -/
theorem place_eq_done (s s' : Greenwald_khanna T) (value : T)
    (h : place s value = Outcome.done s') :
    ∃ it, find_insert_iterator s.m_tuples value = some it ∧
      s' = { s with
        m_tuples := list_insert s.m_tuples it (Tuple.new value 1 (compute_delta s it))
        m_n := wrap_long (s.m_n + 1) } := by
  unfold place at h
  split at h
  · simp at h
  · rename_i it hit
    simp only [Outcome.done.injEq] at h
    exact ⟨it, hit, h.symm⟩

/-- A run of `insert` that completes is a run of `place` on the summary as it was: the
`compress()` it may have called has changed nothing. -/
theorem insert_eq_done (s s' : Greenwald_khanna T) (value : T)
    (h : insert s value = Outcome.done s') : place s value = Outcome.done s' := by
  unfold insert at h
  split at h
  · split at h
    · simp at h
    · split at h
      · obtain ⟨s1, h1, h2⟩ := bind_eq_done _ _ _ h
        rw [compress_eq_done s s1 h1] at h2
        exact h2
      · exact h
  · exact h

/-- The insert of a value above every stored tuple never completes. -/
theorem insert_of_all_lt (s : Greenwald_khanna T) (value : T)
    (h : ∀ t ∈ s.m_tuples, t.v < value) : ∃ f, insert s value = Outcome.undefined f := by
  cases hi : insert s value with
  | undefined f => exact ⟨f, rfl⟩
  | done s' =>
    have := insert_eq_done s s' value hi
    rw [place_of_all_lt s value h] at this
    simp at this

/-- The first `insert` into a fresh summary: the count is `0`, so `compress()` is not
called, and `find_insert_iterator` runs on the empty list. -/
theorem insert_new (num den : Nat) (value : T) :
    insert (Greenwald_khanna.new num den : Greenwald_khanna T) value
      = Outcome.undefined Fault.no_return := by
  unfold insert
  rw [if_neg (by simp [Greenwald_khanna.new])]
  rfl

theorem insert_all_cons (s : Greenwald_khanna T) (value : T) (values : List T) :
    insert_all s (value :: values) = (insert s value).bind fun s1 => insert_all s1 values := by
  unfold insert_all
  rw [List.foldl_cons, bind_done]
  cases insert s value with
  | done s1 => rfl
  | undefined f => rw [bind_undefined]; exact foldl_bind_undefined _ f values

/-- No run of inserts into a fresh summary gets past its first call. -/
theorem insert_all_new (num den : Nat) (values : List T) (h : values ≠ []) :
    insert_all (Greenwald_khanna.new num den : Greenwald_khanna T) values
      = Outcome.undefined Fault.no_return := by
  cases values with
  | nil => exact absurd rfl h
  | cons value values => rw [insert_all_cons, insert_new, bind_undefined]

/-- The shape of a completed `insert`: the old tuples are all kept, in order and unchanged;
the new tuple stands behind the tuples below `value` and before the first tuple at or above
it; the count grows by one; epsilon and the period stay. -/
theorem insert_shape (s s' : Greenwald_khanna T) (value : T)
    (h : insert s value = Outcome.done s') :
    ∃ pre t post, s.m_tuples = pre ++ t :: post ∧ (∀ u ∈ pre, u.v < value) ∧ value ≤ t.v ∧
      s'.m_tuples = pre ++ Tuple.new value 1 (compute_delta s pre.length) :: t :: post ∧
      s'.m_n = wrap_long (s.m_n + 1) ∧ s'.m_epsilon = s.m_epsilon ∧
      s'.m_one_devide_2e = s.m_one_devide_2e := by
  obtain ⟨it, hit, rfl⟩ := place_eq_done s s' value (insert_eq_done s s' value h)
  obtain ⟨pre, t, post, e, hlen, hpre, ht⟩ := find_insert_iterator_split _ _ _ hit
  refine ⟨pre, t, post, e, hpre, ht, ?_, rfl, rfl, rfl⟩
  show list_insert s.m_tuples it _ = _
  rw [hlen]
  conv_lhs => rw [e]
  rw [list_insert_append]

/-- A completed `insert` adds `1` to the sum of `g`. -/
theorem insert_sum_g (s s' : Greenwald_khanna T) (value : T)
    (h : insert s value = Outcome.done s') : sum_g s'.m_tuples = sum_g s.m_tuples + 1 := by
  obtain ⟨pre, t, post, e, _, _, e', _⟩ := insert_shape s s' value h
  rw [e, e']
  simp [Tuple.new]
  ring

/-- A completed `insert` keeps the values in non-decreasing order. -/
theorem insert_sorted (s s' : Greenwald_khanna T) (value : T)
    (h : insert s value = Outcome.done s') (hs : (s.m_tuples.map Tuple.v).Sorted (· ≤ ·)) :
    (s'.m_tuples.map Tuple.v).Sorted (· ≤ ·) := by
  obtain ⟨pre, t, post, e, hpre, ht, e', _⟩ := insert_shape s s' value h
  rw [e] at hs
  rw [e']
  simp only [List.map_append, List.map_cons, List.Sorted, List.pairwise_append, List.pairwise_cons,
    List.mem_map, List.mem_cons, forall_exists_index, and_imp, forall_apply_eq_imp_iff₂,
    forall_eq_or_imp] at hs ⊢
  obtain ⟨h1, ⟨h2, h3⟩, h4⟩ := hs
  refine ⟨h1, ⟨⟨ht, fun u hu => le_trans ht (h2 u hu)⟩, h2, h3⟩, ?_⟩
  intro u hu
  exact ⟨le_of_lt (hpre u hu), h4 u hu⟩

/-- A completed `insert` keeps `min_bounds = v = max_bounds` in every tuple. -/
theorem insert_bounds_exact (s s' : Greenwald_khanna T) (value : T)
    (h : insert s value = Outcome.done s') (hs : bounds_exact s.m_tuples) :
    bounds_exact s'.m_tuples := by
  obtain ⟨pre, t, post, e, _, _, e', _⟩ := insert_shape s s' value h
  rw [e] at hs
  rw [e']
  intro u hu
  simp only [List.mem_append, List.mem_cons] at hu
  rcases hu with hu | rfl | rfl | hu
  · exact hs u (by simp [hu])
  · exact ⟨rfl, rfl⟩
  · exact hs u (by simp)
  · exact hs u (by simp [hu])

end Insert

/-! ## The scan of `query` -/

theorem running_sum_from_zero {T : Type} (sum : Int) (t : Tuple T) (ts : List (Tuple T)) :
    running_sum_from sum (t :: ts) 0 = wrap_long (sum + t.g) := by
  simp [running_sum_from]

theorem running_sum_from_succ {T : Type} (sum : Int) (t : Tuple T) (ts : List (Tuple T)) (i : Nat) :
    running_sum_from sum (t :: ts) (i + 1) = running_sum_from (wrap_long (sum + t.g)) ts i := by
  simp [running_sum_from]

/-- The loop returns the first tuple that passes the test, with its running sum. -/
theorem query_loop_first {T : Type} (range rank : Int) (ts : List (Tuple T)) (sum : Int)
    (h : ∃ i t, ts[i]? = some t ∧ query_match range rank (running_sum_from sum ts i) t) :
    ∃ i t, ts[i]? = some t ∧ query_match range rank (running_sum_from sum ts i) t ∧
      (∀ j, j < i → ∀ u, ts[j]? = some u →
        ¬ query_match range rank (running_sum_from sum ts j) u) ∧
      query_loop range rank sum ts = Outcome.done (t, running_sum_from sum ts i) := by
  induction ts generalizing sum with
  | nil => obtain ⟨i, t, h, _⟩ := h; simp at h
  | cons x xs ih =>
    by_cases hx : query_match range rank (wrap_long (sum + x.g)) x
    · refine ⟨0, x, by simp, by rw [running_sum_from_zero]; exact hx,
        fun j hj => absurd hj (Nat.not_lt_zero j), ?_⟩
      simp [query_loop, hx, running_sum_from_zero]
    · obtain ⟨i, t, hi, hm⟩ := h
      cases i with
      | zero =>
        simp at hi; subst hi
        rw [running_sum_from_zero] at hm
        exact absurd hm hx
      | succ k =>
        rw [running_sum_from_succ] at hm
        obtain ⟨i, t, h1, h2, h3, h4⟩ := ih (wrap_long (sum + x.g)) ⟨k, t, by simpa using hi, hm⟩
        refine ⟨i + 1, t, by simpa using h1, ?_, ?_, ?_⟩
        · rw [running_sum_from_succ]; exact h2
        · intro j hj u hu
          cases j with
          | zero =>
            simp at hu; subst hu
            rw [running_sum_from_zero]; exact hx
          | succ j =>
            rw [running_sum_from_succ]
            exact h3 j (by omega) u (by simpa using hu)
        · simp only [query_loop, hx, if_false]
          rw [h4, running_sum_from_succ]

/-- When no tuple passes the test the loop ends and `query` is left without a `return`. -/
theorem query_loop_none {T : Type} (range rank : Int) (ts : List (Tuple T)) (sum : Int)
    (h : ∀ i t, ts[i]? = some t → ¬ query_match range rank (running_sum_from sum ts i) t) :
    query_loop range rank sum ts = Outcome.undefined Fault.no_return := by
  induction ts generalizing sum with
  | nil => rfl
  | cons x xs ih =>
    have hx : ¬ query_match range rank (wrap_long (sum + x.g)) x := by
      have := h 0 x (by simp)
      rwa [running_sum_from_zero] at this
    simp only [query_loop, hx, if_false]
    apply ih
    intro i t hi
    have := h (i + 1) t (by simpa using hi)
    rwa [running_sum_from_succ] at this

/-- The method `query` returns the first tuple that passes its test, with the running sum
at that tuple. -/
theorem query_first_match {T : Type} (s : Greenwald_khanna T) (rank : Int)
    (h : ∃ i, matches_at s rank i) :
    ∃ i t, s.m_tuples[i]? = some t ∧ matches_at s rank i ∧ (∀ j, j < i → ¬ matches_at s rank j) ∧
      query s rank = Outcome.done (t, running_sum s.m_tuples i) := by
  obtain ⟨i0, t0, h0, hm0⟩ := h
  obtain ⟨i, t, h1, h2, h3, h4⟩ := query_loop_first s.range rank s.m_tuples 0 ⟨i0, t0, h0, hm0⟩
  refine ⟨i, t, h1, ⟨t, h1, h2⟩, ?_, h4⟩
  rintro j hj ⟨u, hu, hmu⟩
  exact h3 j hj u hu hmu

/-- The conversion to `int` yields an `int`. -/
theorem double_to_int_range (x : Double) :
    INT_MIN ≤ double_to_int x ∧ double_to_int x ≤ INT_MAX := by
  unfold double_to_int
  split
  · rename_i h; exact ⟨h.2.1, h.2.2⟩
  · decide

theorem wrap_long_of_range (x : Int) (h1 : LONG_MIN ≤ x) (h2 : x ≤ LONG_MAX) : wrap_long x = x := by
  unfold wrap_long
  unfold LONG_MIN at h1
  unfold LONG_MAX at h2
  omega

/-! ## Completed runs of `compress` -/

section CompressDone
variable {T : Type}

theorem foldl_band_pass_checked_done (p : Nat) (alphas : List Nat) (bands result : List Int)
    (h : alphas.foldl (fun acc alpha => acc.bind fun b => band_pass_checked p b alpha)
      (Outcome.done bands) = Outcome.done result) :
    result = alphas.foldl (band_pass p) bands := by
  induction alphas generalizing bands with
  | nil =>
    simp only [List.foldl_nil, Outcome.done.injEq] at h
    exact h.symm
  | cons alpha alphas ih =>
    rw [List.foldl_cons, bind_done] at h
    rw [List.foldl_cons]
    cases hp : band_pass_checked p bands alpha with
    | undefined f =>
      rw [hp, foldl_band_pass_checked_undefined] at h
      simp at h
    | done b =>
      rw [hp] at h
      have e : b = band_pass p bands alpha := by
        unfold band_pass_checked at hp
        split at hp
        · simp at hp
        · simp only [Outcome.done.injEq] at hp
          exact hp.symm
      rw [← e]
      exact ih b h

/-- When every write of `create_bands` stays inside the vector, the table is the one that
`create_bands` describes. -/
theorem create_bands_checked_done (two_eps_n : Int) (bands : List Int)
    (h : create_bands_checked two_eps_n = Outcome.done bands) :
    bands = create_bands two_eps_n.toNat := by
  unfold create_bands_checked at h
  split at h
  · simp at h
  · split at h
    · simp at h
    · exact foldl_band_pass_checked_done _ _ _ _ h

/-- A read inside the table gives the entry that `band_at` names. -/
theorem band_read_some (bands : List Int) (delta band : Int) (h : band_read bands delta = some band) :
    band_at bands delta = band := by
  unfold band_read at h
  split at h
  · unfold band_at
    simp [List.getD_eq_getElem?_getD, h]
  · simp at h

/-- A completed run of the loop has found the merge test false at every pair it visited. -/
theorem compress_loop_done (bands : List Int) (two_eps_n : Int) (l : List (Tuple T))
    (h : compress_loop bands two_eps_n l = Outcome.done ()) (i : Nat) (it next_it : Tuple T)
    (h1 : l[i]? = some it) (h2 : l[i + 1]? = some next_it) :
    compress_step bands two_eps_n it next_it = Outcome.done () := by
  induction l generalizing i with
  | nil => simp at h1
  | cons x xs ih =>
    cases xs with
    | nil => simp at h2
    | cons y rest =>
      unfold compress_loop at h
      obtain ⟨_, hrest, hstep⟩ := bind_eq_done _ _ _ h
      cases i with
      | zero =>
        simp only [List.getElem?_cons_zero, Option.some.injEq] at h1
        simp only [zero_add, List.getElem?_cons_succ, List.getElem?_cons_zero,
          Option.some.injEq] at h2
        subst h1 h2
        exact hstep
      | succ k =>
        exact ih hrest k (by simpa using h1) (by simpa using h2)

/-- A run of `compress` completes only when the band table was built inside its vector and
no tuple behind the first passes the merge test with its successor; it then returns the
summary it was given. -/
theorem compress_done_no_merge (s s' : Greenwald_khanna T) (h : compress s = Outcome.done s') :
    s' = s ∧ create_bands_checked s.two_eps_n = Outcome.done (create_bands s.two_eps_n.toNat) ∧
      ∀ i it next_it, 1 ≤ i → s.m_tuples[i]? = some it → s.m_tuples[i + 1]? = some next_it →
        ¬ can_absorb (band_at (create_bands s.two_eps_n.toNat) it.delta)
            (band_at (create_bands s.two_eps_n.toNat) next_it.delta) s.two_eps_n it next_it := by
  refine ⟨compress_eq_done s s' h, ?_⟩
  unfold compress at h
  split at h
  · simp at h
  · obtain ⟨bands, hb, h⟩ := bind_eq_done _ _ _ h
    obtain ⟨_, hl, _⟩ := bind_eq_done _ _ _ h
    have e := create_bands_checked_done _ _ hb
    subst e
    refine ⟨hb, ?_⟩
    intro i it next_it hi h1 h2
    obtain ⟨k, rfl⟩ : ∃ k, i = k + 1 := ⟨i - 1, by omega⟩
    have hstep := compress_loop_done _ _ _ hl k it next_it
      (by rw [List.getElem?_tail]; exact h1) (by rw [List.getElem?_tail]; exact h2)
    obtain ⟨band_it, band_next, r1, r2, hn⟩ := compress_step_done _ _ _ _ hstep
    rw [band_read_some _ _ _ r1, band_read_some _ _ _ r2]
    exact hn

end CompressDone

set_option maxRecDepth 100000 in
/-- The double nearest to `0.29`. -/
theorem round_double_029 : round_double 29 100 = ⟨5224175567749775, 18014398509481984⟩ := by
  decide

set_option maxRecDepth 100000 in
/-- The double nearest to `0.072`. -/
theorem round_double_072 : round_double 72 1000 = ⟨5188146770730811, 72057594037927936⟩ := by
  decide

/-- The merge body leaves `max_bounds` as it was when the absorbed tuple's `max_bounds` does
not exceed it. -/
theorem absorb_max_bounds {T : Type} [LinearOrder T] (it next_it : Tuple T)
    (h : it.max_bounds ≤ next_it.max_bounds) :
    (absorb it next_it).max_bounds = next_it.max_bounds := by
  unfold absorb
  simp only []
  rw [if_neg (not_lt.mpr h)]

theorem ascending_thousand_ne_nil : ascending_thousand ≠ [] := by
  unfold ascending_thousand
  simp

/-! ## Rounding to the nearest double -/

theorem bit_length_aux_zero (fuel bits : Nat) : bit_length_aux fuel 0 bits = bits := by
  cases fuel with
  | zero => rfl
  | succ f => simp [bit_length_aux]

theorem bit_length_aux_spec (fuel n bits : Nat) (hf : n ≤ fuel) (hn : 0 < n) :
    ∃ k, bit_length_aux fuel n bits = bits + (k + 1) ∧ 2 ^ k ≤ n ∧ n < 2 ^ (k + 1) := by
  induction fuel generalizing n bits with
  | zero => omega
  | succ f ih =>
    unfold bit_length_aux
    rw [if_neg (by omega)]
    rcases Nat.eq_zero_or_pos (n / 2) with h0 | h0
    · rw [h0, bit_length_aux_zero]
      refine ⟨0, rfl, by simpa using hn, ?_⟩
      have : n < 2 := by
        by_contra hc
        have := Nat.div_pos (show 2 ≤ n by omega) (by decide : 0 < 2)
        omega
      simpa using this
    · obtain ⟨k, hk, h1, h2⟩ := ih (n / 2) (bits + 1) (by omega) h0
      refine ⟨k + 1, by rw [hk]; ring, ?_, ?_⟩
      · rw [pow_succ]; omega
      · rw [pow_succ]; omega

/-- The bit length of a positive number `n` is the `k + 1` with `2 ^ k ≤ n < 2 ^ (k + 1)`. -/
theorem bit_length_spec (n : Nat) (hn : 0 < n) :
    ∃ k, bit_length n = k + 1 ∧ 2 ^ k ≤ n ∧ n < 2 ^ (k + 1) := by
  obtain ⟨k, hk, h1, h2⟩ := bit_length_aux_spec n n 0 (le_refl n) hn
  exact ⟨k, by rw [bit_length, hk, zero_add], h1, h2⟩

/-- A power of two with an integer exponent, split into a numerator and a denominator. -/
theorem two_zpow_split (z : Int) :
    (2 : ℚ) ^ z = (2 : ℚ) ^ z.toNat / (2 : ℚ) ^ (-z).toNat := by
  rcases le_total 0 z with h | h
  · have e1 : (-z).toNat = 0 := by omega
    have e2 : z = (z.toNat : Int) := by omega
    rw [e1, pow_zero, div_one]
    conv_lhs => rw [e2]
    rw [zpow_natCast]
  · have e1 : z.toNat = 0 := by omega
    have e2 : z = -((-z).toNat : Int) := by omega
    rw [e1, pow_zero, one_div]
    conv_lhs => rw [e2]
    rw [zpow_neg, zpow_natCast]

/-- The test `2 ^ z ≤ p / q` on natural numbers. -/
theorem ge_pow_iff (p q : Nat) (hq : 0 < q) (z : Int) :
    q * 2 ^ z.toNat ≤ p * 2 ^ (-z).toNat ↔ (2 : ℚ) ^ z ≤ (p : ℚ) / (q : ℚ) := by
  have hq' : (0 : ℚ) < q := by exact_mod_cast hq
  have hd : (0 : ℚ) < (2 : ℚ) ^ (-z).toNat := by positivity
  rw [two_zpow_split, div_le_div_iff₀ hd hq']
  constructor
  · intro h
    have : ((q * 2 ^ z.toNat : Nat) : ℚ) ≤ ((p * 2 ^ (-z).toNat : Nat) : ℚ) := by exact_mod_cast h
    push_cast at this
    linarith
  · intro h
    have : ((q * 2 ^ z.toNat : Nat) : ℚ) ≤ ((p * 2 ^ (-z).toNat : Nat) : ℚ) := by
      push_cast
      linarith
    exact_mod_cast this

/-- The binary exponent: `2 ^ e ≤ p / q < 2 ^ (e + 1)` for `e = floor_log2 p q`. -/
theorem floor_log2_spec (p q : Nat) (hp : 0 < p) (hq : 0 < q) :
    (2 : ℚ) ^ floor_log2 p q ≤ (p : ℚ) / (q : ℚ) ∧
    (p : ℚ) / (q : ℚ) < (2 : ℚ) ^ (floor_log2 p q + 1) := by
  obtain ⟨kp, ep, hp1, hp2⟩ := bit_length_spec p hp
  obtain ⟨kq, eq, hq1, hq2⟩ := bit_length_spec q hq
  have hq' : (0 : ℚ) < q := by exact_mod_cast hq
  have cp1 : (2 : ℚ) ^ kp ≤ p := by exact_mod_cast hp1
  have cp2 : (p : ℚ) < (2 : ℚ) ^ (kp + 1) := by exact_mod_cast hp2
  have cq1 : (2 : ℚ) ^ kq ≤ q := by exact_mod_cast hq1
  have cq2 : (q : ℚ) < (2 : ℚ) ^ (kq + 1) := by exact_mod_cast hq2
  have e0 : ((bit_length p : Int) - (bit_length q : Int)) = (kp : Int) - (kq : Int) := by
    rw [ep, eq]; push_cast; ring
  have two_ne : (2 : ℚ) ≠ 0 := by norm_num
  -- below: p / q < 2 ^ (e0 + 1)
  have hup : (p : ℚ) / (q : ℚ) < (2 : ℚ) ^ ((kp : Int) - (kq : Int) + 1) := by
    have e : (2 : ℚ) ^ ((kp : Int) - (kq : Int) + 1) = (2 : ℚ) ^ (kp + 1) / (2 : ℚ) ^ kq := by
      rw [show (kp : Int) - (kq : Int) + 1 = ((kp + 1 : Nat) : Int) - ((kq : Nat) : Int) by
        push_cast; ring, zpow_sub₀ two_ne, zpow_natCast, zpow_natCast]
    rw [e, div_lt_div_iff₀ hq' (by positivity)]
    calc (p : ℚ) * (2 : ℚ) ^ kq < (2 : ℚ) ^ (kp + 1) * (2 : ℚ) ^ kq := by
          apply mul_lt_mul_of_pos_right cp2 (by positivity)
      _ ≤ (2 : ℚ) ^ (kp + 1) * q := by
          apply mul_le_mul_of_nonneg_left cq1 (by positivity)
  -- above: 2 ^ (e0 - 1) ≤ p / q
  have hlow : (2 : ℚ) ^ ((kp : Int) - (kq : Int) - 1) ≤ (p : ℚ) / (q : ℚ) := by
    have e : (2 : ℚ) ^ ((kp : Int) - (kq : Int) - 1) = (2 : ℚ) ^ kp / (2 : ℚ) ^ (kq + 1) := by
      rw [show (kp : Int) - (kq : Int) - 1 = ((kp : Nat) : Int) - ((kq + 1 : Nat) : Int) by
        push_cast; ring, zpow_sub₀ two_ne, zpow_natCast, zpow_natCast]
    rw [e, div_le_div_iff₀ (by positivity) hq']
    calc (2 : ℚ) ^ kp * q ≤ (2 : ℚ) ^ kp * (2 : ℚ) ^ (kq + 1) := by
          apply mul_le_mul_of_nonneg_left (le_of_lt cq2) (by positivity)
      _ ≤ (p : ℚ) * (2 : ℚ) ^ (kq + 1) := by
          apply mul_le_mul_of_nonneg_right cp1 (by positivity)
  unfold floor_log2
  simp only []
  rw [e0]
  split
  · rename_i ht
    exact ⟨(ge_pow_iff p q hq _).mp ht, hup⟩
  · rename_i ht
    refine ⟨hlow, ?_⟩
    rw [show (kp : Int) - (kq : Int) - 1 + 1 = (kp : Int) - (kq : Int) by ring]
    exact not_le.mp fun hc => ht ((ge_pow_iff p q hq _).mpr hc)

/-- Rounding `N / D` to the nearest integer does not go below an integer `L ≤ N / D`. -/
theorem round_nearest_ge (N D L : Nat) (hD : 0 < D) (h : L * D ≤ N) :
    L ≤ (if D < 2 * (N % D) ∨ (2 * (N % D) = D ∧ N / D % 2 = 1) then N / D + 1 else N / D) := by
  have h0 : L ≤ N / D := (Nat.le_div_iff_mul_le hD).mpr h
  split <;> omega

/-- Rounding `N / D` to the nearest integer does not go above an integer `L ≥ N / D`. -/
theorem round_nearest_le (N D L : Nat) (hD : 0 < D) (h : N ≤ L * D) :
    (if D < 2 * (N % D) ∨ (2 * (N % D) = D ∧ N / D % 2 = 1) then N / D + 1 else N / D) ≤ L := by
  have hdm := Nat.div_add_mod N D
  have h0 : N / D ≤ L := by
    by_contra hc
    have h1 : L + 1 ≤ N / D := by omega
    have h2 : (L + 1) * D ≤ N := (Nat.le_div_iff_mul_le hD).mp h1
    nlinarith
  split
  · rename_i hr
    have hpos : 0 < N % D := by
      rcases hr with hr | hr <;> omega
    by_contra hc
    have h1 : N / D = L := by omega
    rw [h1] at hdm
    nlinarith
  · exact h0

/-- The result of `round_pos` is `m * 2 ^ (e - 52)`, for an integer `m` between `2 ^ 52` and
`2 ^ 53`, and lies on the same side of every number `K * 2 ^ j` with `K ≤ 2 ^ 53` as
`p / q` does. -/
theorem round_pos_spec (p q : Nat) (hp : 0 < p) (hq : 0 < q) :
    (∃ m : Nat, 2 ^ 52 ≤ m ∧ m ≤ 2 ^ 53 ∧
      round_pos_value p q = (m : ℚ) * (2 : ℚ) ^ (floor_log2 p q - 52)) ∧
    (∀ (K : Nat) (j : Int), K ≤ 2 ^ 53 → (K : ℚ) * (2 : ℚ) ^ j ≤ (p : ℚ) / (q : ℚ) →
      (K : ℚ) * (2 : ℚ) ^ j ≤ round_pos_value p q) ∧
    (∀ (K : Nat) (j : Int), K ≤ 2 ^ 53 → (p : ℚ) / (q : ℚ) ≤ (K : ℚ) * (2 : ℚ) ^ j →
      round_pos_value p q ≤ (K : ℚ) * (2 : ℚ) ^ j) := by
  obtain ⟨hlo, hhi⟩ := floor_log2_spec p q hp hq
  have two_ne : (2 : ℚ) ≠ 0 := by norm_num
  have hq' : (0 : ℚ) < q := by exact_mod_cast hq
  -- the names of the definition
  generalize he : floor_log2 p q = e at hlo hhi
  set s : Int := 52 - e with hs
  set N : Nat := p * 2 ^ s.toNat with hN
  set D : Nat := q * 2 ^ (-s).toNat with hD
  set m : Nat := (if D < 2 * (N % D) ∨ (2 * (N % D) = D ∧ N / D % 2 = 1) then N / D + 1
    else N / D) with hm
  have hDpos : 0 < D := Nat.mul_pos hq (Nat.two_pow_pos _)
  have hD' : (0 : ℚ) < D := by exact_mod_cast hDpos
  have hspos : (0 : ℚ) < (2 : ℚ) ^ s := zpow_pos (by norm_num) s
  -- the scaled fraction
  have hy : (N : ℚ) / (D : ℚ) = (p : ℚ) / (q : ℚ) * (2 : ℚ) ^ s := by
    rw [hN, hD, two_zpow_split s]
    push_cast
    field_simp
  have hval : round_pos_value p q = (m : ℚ) * (2 : ℚ) ^ (-s) := by
    unfold round_pos_value round_pos
    simp only []
    rw [he, ← hs, ← hN, ← hD, ← hm, zpow_neg, two_zpow_split s]
    push_cast
    field_simp
  -- integers below and above the scaled fraction
  have below : ∀ L : Nat, (L : ℚ) ≤ (p : ℚ) / (q : ℚ) * (2 : ℚ) ^ s → (L : ℚ) ≤ (m : ℚ) := by
    intro L hL
    rw [← hy, le_div_iff₀ hD'] at hL
    have : L * D ≤ N := by exact_mod_cast hL
    exact_mod_cast round_nearest_ge N D L hDpos this
  have above : ∀ L : Nat, (p : ℚ) / (q : ℚ) * (2 : ℚ) ^ s ≤ (L : ℚ) → (m : ℚ) ≤ (L : ℚ) := by
    intro L hL
    rw [← hy, div_le_iff₀ hD'] at hL
    have : N ≤ L * D := by exact_mod_cast hL
    exact_mod_cast round_nearest_le N D L hDpos this
  have e52 : (2 : ℚ) ^ e * (2 : ℚ) ^ s = (2 : ℚ) ^ (52 : Nat) := by
    rw [← zpow_add₀ two_ne, hs, show e + (52 - e) = ((52 : Nat) : Int) by push_cast; ring,
      zpow_natCast]
  have e53 : (2 : ℚ) ^ (e + 1) * (2 : ℚ) ^ s = (2 : ℚ) ^ (53 : Nat) := by
    rw [← zpow_add₀ two_ne, hs, show e + 1 + (52 - e) = ((53 : Nat) : Int) by push_cast; ring,
      zpow_natCast]
  have c52 : (((2 ^ 52 : Nat) : Nat) : ℚ) = (2 : ℚ) ^ (52 : Nat) := by norm_num
  have c53 : (((2 ^ 53 : Nat) : Nat) : ℚ) = (2 : ℚ) ^ (53 : Nat) := by norm_num
  have y_lo : (2 : ℚ) ^ (52 : Nat) ≤ (p : ℚ) / (q : ℚ) * (2 : ℚ) ^ s := by
    rw [← e52]
    exact mul_le_mul_of_nonneg_right hlo (le_of_lt hspos)
  have y_hi : (p : ℚ) / (q : ℚ) * (2 : ℚ) ^ s ≤ (2 : ℚ) ^ (53 : Nat) := by
    rw [← e53]
    exact mul_le_mul_of_nonneg_right (le_of_lt hhi) (le_of_lt hspos)
  have m_lo : (2 : ℚ) ^ (52 : Nat) ≤ (m : ℚ) := by
    rw [← c52]
    exact below _ (by rw [c52]; exact y_lo)
  have m_hi : (m : ℚ) ≤ (2 : ℚ) ^ (53 : Nat) := by
    rw [← c53]
    exact above _ (by rw [c53]; exact y_hi)
  have shift : ∀ (K : Nat) (j : Int),
      (K : ℚ) * (2 : ℚ) ^ j * (2 : ℚ) ^ s = (K : ℚ) * (2 : ℚ) ^ (j + s) := by
    intro K j
    rw [mul_assoc, ← zpow_add₀ two_ne]
  have unshift : ∀ (a b : ℚ), a * (2 : ℚ) ^ s ≤ b → a ≤ b * (2 : ℚ) ^ (-s) := by
    intro a b hab
    rw [zpow_neg, ← div_eq_mul_inv, le_div_iff₀ hspos]
    exact hab
  have unshift' : ∀ (a b : ℚ), b ≤ a * (2 : ℚ) ^ s → b * (2 : ℚ) ^ (-s) ≤ a := by
    intro a b hab
    rw [zpow_neg, ← div_eq_mul_inv, div_le_iff₀ hspos]
    exact hab
  have small : ∀ (K : Nat) (z : Int), K ≤ 2 ^ 53 → z < 0 →
      (K : ℚ) * (2 : ℚ) ^ z ≤ (2 : ℚ) ^ (52 : Nat) := by
    intro K z hK hz
    have h1 : (2 : ℚ) ^ z ≤ (2 : ℚ) ^ (-1 : Int) :=
      zpow_le_zpow_right₀ (by norm_num) (by omega)
    have h2 : (K : ℚ) ≤ (2 : ℚ) ^ (53 : Nat) := by exact_mod_cast hK
    calc (K : ℚ) * (2 : ℚ) ^ z ≤ (2 : ℚ) ^ (53 : Nat) * (2 : ℚ) ^ (-1 : Int) :=
          mul_le_mul h2 h1 (le_of_lt (zpow_pos (by norm_num) z)) (by positivity)
      _ = (2 : ℚ) ^ (52 : Nat) := by norm_num
  refine ⟨⟨m, by exact_mod_cast m_lo, by exact_mod_cast m_hi, ?_⟩, ?_, ?_⟩
  · rw [hval, hs]
    congr 2
    ring
  · intro K j hK hB
    rw [hval]
    apply unshift
    have hB' : (K : ℚ) * (2 : ℚ) ^ j * (2 : ℚ) ^ s ≤ (p : ℚ) / (q : ℚ) * (2 : ℚ) ^ s :=
      mul_le_mul_of_nonneg_right hB (le_of_lt hspos)
    rw [shift]
    rw [shift] at hB'
    rcases le_or_lt 0 (j + s) with hz | hz
    · have eL : (K : ℚ) * (2 : ℚ) ^ (j + s) = ((K * 2 ^ (j + s).toNat : Nat) : ℚ) := by
        push_cast
        rw [← zpow_natCast, Int.toNat_of_nonneg hz]
      rw [eL] at hB' ⊢
      exact below _ hB'
    · exact le_trans (small K _ hK hz) m_lo
  · intro K j hK hB
    rw [hval]
    apply unshift'
    have hB' : (p : ℚ) / (q : ℚ) * (2 : ℚ) ^ s ≤ (K : ℚ) * (2 : ℚ) ^ j * (2 : ℚ) ^ s :=
      mul_le_mul_of_nonneg_right hB (le_of_lt hspos)
    rw [shift]
    rw [shift] at hB'
    rcases le_or_lt 0 (j + s) with hz | hz
    · have eL : (K : ℚ) * (2 : ℚ) ^ (j + s) = ((K * 2 ^ (j + s).toNat : Nat) : ℚ) := by
        push_cast
        rw [← zpow_natCast, Int.toNat_of_nonneg hz]
      rw [eL] at hB' ⊢
      exact above _ hB'
    · have h1 : (p : ℚ) / (q : ℚ) * (2 : ℚ) ^ s ≤ (((2 ^ 52 : Nat) : Nat) : ℚ) := by
        rw [c52]
        exact le_trans hB' (small K _ hK hz)
      have h2 := above _ h1
      rw [c52] at h2
      exact le_trans h2 (le_trans y_lo hB')

/-- The double nearest to a non-negative fraction `p / q`: it is non-negative, it is a
number `m * 2 ^ j` with `m ≤ 2 ^ 53`, and it lies on the same side of every such number as
`p / q` does. -/
theorem round_double_spec (p q : Nat) (hq : 0 < q) :
    0 ≤ (round_double p q).num ∧ (round_double p q).is_nonneg_double ∧
    (∀ (K : Nat) (j : Int), K ≤ 2 ^ 53 → (K : ℚ) * (2 : ℚ) ^ j ≤ (p : ℚ) / (q : ℚ) →
      (K : ℚ) * (2 : ℚ) ^ j ≤ (round_double p q).value) ∧
    (∀ (K : Nat) (j : Int), K ≤ 2 ^ 53 → (p : ℚ) / (q : ℚ) ≤ (K : ℚ) * (2 : ℚ) ^ j →
      (round_double p q).value ≤ (K : ℚ) * (2 : ℚ) ^ j) := by
  rcases Nat.eq_zero_or_pos p with hp | hp
  · subst hp
    have e : round_double ((0 : Nat) : Int) q = ⟨0, 1⟩ := by
      unfold round_double
      rw [if_neg (by omega), if_pos (by simp)]
    rw [e]
    refine ⟨le_refl _, ⟨by decide, 0, 0, by positivity, by simp [Double.value]⟩, ?_, ?_⟩
    · intro K j _ h
      simpa [Double.value] using h
    · intro K j _ _
      simp only [Double.value, Int.cast_zero, zero_div]
      positivity
  · have e : round_double (p : Int) q = ⟨((round_pos p q).1 : Int), (round_pos p q).2⟩ := by
      unfold round_double
      rw [if_neg (by omega), if_neg (by omega)]
      simp only [Int.natAbs_ofNat]
      rw [if_neg (by omega)]
    have ev : (round_double (p : Int) q).value = round_pos_value p q := by
      rw [e]
      simp [Double.value, round_pos_value]
    have hden : 0 < (round_pos p q).2 := by
      unfold round_pos
      simp only []
      exact Nat.two_pow_pos _
    obtain ⟨⟨m, _, hm, hv⟩, hge, hle⟩ := round_pos_spec p q hp hq
    refine ⟨?_, ⟨?_, m, floor_log2 p q - 52, hm, by rw [ev, hv]⟩, ?_, ?_⟩
    · rw [e]; exact Int.natCast_nonneg _
    · rw [e]; exact hden
    · intro K j hK h; rw [ev]; exact hge K j hK h
    · intro K j hK h; rw [ev]; exact hle K j hK h

/-- The double nearest to a fraction below zero is the mirror image of the double nearest to
its absolute value. -/
theorem round_double_neg (p q : Nat) (hp : 0 < p) (hq : 0 < q) :
    (round_double (-(p : Int)) q).value = -(round_double p q).value ∧
    0 < (round_double (-(p : Int)) q).den := by
  have e1 : round_double (p : Int) q = ⟨((round_pos p q).1 : Int), (round_pos p q).2⟩ := by
    unfold round_double
    rw [if_neg (by omega), if_neg (by omega)]
    simp only [Int.natAbs_ofNat]
    rw [if_neg (by omega)]
  have e2 : round_double (-(p : Int)) q = ⟨-((round_pos p q).1 : Int), (round_pos p q).2⟩ := by
    unfold round_double
    rw [if_neg (by omega), if_neg (by omega)]
    simp only [Int.natAbs_neg, Int.natAbs_ofNat]
    rw [if_pos (by omega)]
  have hden : 0 < (round_pos p q).2 := by
    unfold round_pos
    simp only []
    exact Nat.two_pow_pos _
  rw [e1, e2]
  refine ⟨?_, hden⟩
  simp only [Double.value]
  push_cast
  ring

/-- An integer of absolute value up to `2 ^ 53` is converted to `double` exactly. -/
theorem long_to_double_exact (n : Int) (h1 : -(2 ^ 53) ≤ n) (h2 : n ≤ 2 ^ 53) :
    (long_to_double n).value = (n : ℚ) ∧ 0 < (long_to_double n).den := by
  have key : ∀ k : Nat, k ≤ 2 ^ 53 → (round_double (k : Int) 1).value = (k : ℚ) := by
    intro k hk
    obtain ⟨_, _, hge, hle⟩ := round_double_spec k 1 (by decide)
    apply le_antisymm
    · have := hle k 0 hk (by simp)
      simpa using this
    · have := hge k 0 hk (by simp)
      simpa using this
  unfold long_to_double
  rcases le_or_lt 0 n with hn | hn
  · obtain ⟨k, rfl⟩ := Int.eq_ofNat_of_zero_le hn
    have hk : k ≤ 2 ^ 53 := by exact_mod_cast h2
    refine ⟨by rw [key k hk]; simp, ?_⟩
    exact (round_double_spec k 1 (by decide)).2.1.1
  · obtain ⟨k, hk0, rfl⟩ : ∃ k : Nat, 0 < k ∧ n = -(k : Int) := ⟨(-n).toNat, by omega, by omega⟩
    have hk : k ≤ 2 ^ 53 := by
      have : ((k : Nat) : Int) ≤ 2 ^ 53 := by omega
      exact_mod_cast this
    obtain ⟨hv, hd⟩ := round_double_neg k 1 hk0 (by decide)
    refine ⟨by rw [hv, key k hk]; simp, hd⟩

/-- The product of two non-negative doubles is the double nearest to the exact product. -/
theorem double_mul_spec (x y : Double) (hx : 0 ≤ x.num) (hxd : 0 < x.den) (hy : 0 ≤ y.num)
    (hyd : 0 < y.den) :
    0 ≤ (double_mul x y).num ∧ (double_mul x y).is_nonneg_double ∧
    (∀ (K : Nat) (j : Int), K ≤ 2 ^ 53 → (K : ℚ) * (2 : ℚ) ^ j ≤ x.value * y.value →
      (K : ℚ) * (2 : ℚ) ^ j ≤ (double_mul x y).value) ∧
    (∀ (K : Nat) (j : Int), K ≤ 2 ^ 53 → x.value * y.value ≤ (K : ℚ) * (2 : ℚ) ^ j →
      (double_mul x y).value ≤ (K : ℚ) * (2 : ℚ) ^ j) := by
  obtain ⟨a, ha⟩ := Int.eq_ofNat_of_zero_le hx
  obtain ⟨b, hb⟩ := Int.eq_ofNat_of_zero_le hy
  have e : double_mul x y = round_double ((a * b : Nat) : Int) (x.den * y.den) := by
    unfold double_mul
    rw [ha, hb]
    push_cast
    rfl
  have hq : 0 < x.den * y.den := Nat.mul_pos hxd hyd
  have ev : (((a * b : Nat) : Nat) : ℚ) / ((x.den * y.den : Nat) : ℚ) = x.value * y.value := by
    unfold Double.value
    rw [ha, hb]
    push_cast
    have h1 : (x.den : ℚ) ≠ 0 := by exact_mod_cast (Nat.pos_iff_ne_zero.mp hxd)
    have h2 : (y.den : ℚ) ≠ 0 := by exact_mod_cast (Nat.pos_iff_ne_zero.mp hyd)
    field_simp
  obtain ⟨h1, h2, h3, h4⟩ := round_double_spec (a * b) (x.den * y.den) hq
  rw [e]
  rw [ev] at h3 h4
  exact ⟨h1, h2, h3, h4⟩

/-- Doubling a double is exact. -/
theorem double_twice (x : Double) (hx : 0 ≤ x.num) (h : x.is_nonneg_double) :
    (double_mul (Double.of_int 2) x).value = 2 * x.value ∧
    0 ≤ (double_mul (Double.of_int 2) x).num ∧ 0 < (double_mul (Double.of_int 2) x).den := by
  obtain ⟨hd, m, j, hm, hv⟩ := h
  obtain ⟨h1, h2, h3, h4⟩ := double_mul_spec (Double.of_int 2) x (by decide) (by decide) hx hd
  have e2 : (Double.of_int 2).value = 2 := by simp [Double.value, Double.of_int]
  have eb : (m : ℚ) * (2 : ℚ) ^ (j + 1) = (Double.of_int 2).value * x.value := by
    rw [e2, hv, zpow_add₀ (by norm_num : (2 : ℚ) ≠ 0), zpow_one]
    ring
  refine ⟨?_, h1, h2.1⟩
  rw [← e2]
  apply le_antisymm
  · have := h4 m (j + 1) hm (le_of_eq eb.symm)
    rwa [eb] at this
  · have := h3 m (j + 1) hm (le_of_eq eb)
    rwa [eb] at this

/-- The truncation of a non-negative double to `long` is the floor of its value. -/
theorem double_to_long_floor (d : Double) (h0 : 0 ≤ d.num) (hd : 0 < d.den)
    (hb : ⌊d.value⌋ ≤ LONG_MAX) : double_to_long d = ⌊d.value⌋ := by
  have e : Int.tdiv d.num d.den = ⌊d.value⌋ := by
    rw [Int.tdiv_eq_ediv h0 (Int.natCast_nonneg _)]
    unfold Double.value
    rw [Rat.floor_intCast_div_natCast]
  have hf : 0 ≤ ⌊d.value⌋ := by
    rw [← e]
    exact Int.tdiv_nonneg h0 (Int.natCast_nonneg _)
  unfold double_to_long
  rw [e, if_pos ⟨by omega, by unfold LONG_MIN; omega, hb⟩]

/-- The truncation of a non-negative double to `int` is the floor of its value. -/
theorem double_to_int_floor (d : Double) (h0 : 0 ≤ d.num) (hd : 0 < d.den)
    (hb : ⌊d.value⌋ ≤ INT_MAX) : double_to_int d = ⌊d.value⌋ := by
  have e : Int.tdiv d.num d.den = ⌊d.value⌋ := by
    rw [Int.tdiv_eq_ediv h0 (Int.natCast_nonneg _)]
    unfold Double.value
    rw [Rat.floor_intCast_div_natCast]
  have hf : 0 ≤ ⌊d.value⌋ := by
    rw [← e]
    exact Int.tdiv_nonneg h0 (Int.natCast_nonneg _)
  unfold double_to_int
  rw [e, if_pos ⟨by omega, by unfold INT_MIN; omega, hb⟩]

/-- The conversion to `int` of a double whose value is an integer in the range of `int`. -/
theorem double_to_int_of_int (d : Double) (hd : 0 < d.den) (k : Int) (hv : d.value = (k : ℚ))
    (h1 : INT_MIN ≤ k) (h2 : k ≤ INT_MAX) : double_to_int d = k := by
  have hne : (d.den : ℚ) ≠ 0 := by exact_mod_cast (Nat.pos_iff_ne_zero.mp hd)
  have e0 : d.num = k * (d.den : Int) := by
    unfold Double.value at hv
    rw [div_eq_iff hne] at hv
    exact_mod_cast hv
  have e : Int.tdiv d.num d.den = k := by
    rw [e0]
    exact Int.mul_tdiv_cancel _ (by exact_mod_cast (Nat.pos_iff_ne_zero.mp hd))
  unfold double_to_int
  rw [e, if_pos ⟨by omega, h1, h2⟩]

/-- The floor of a rounded number is the floor of the exact number or one more. -/
theorem floor_of_rounded (exact value : ℚ) (h0 : 0 ≤ exact) (hb : ⌊exact⌋ + 1 ≤ 2 ^ 53)
    (hge : ∀ (K : Nat) (j : Int), K ≤ 2 ^ 53 → (K : ℚ) * (2 : ℚ) ^ j ≤ exact →
      (K : ℚ) * (2 : ℚ) ^ j ≤ value)
    (hle : ∀ (K : Nat) (j : Int), K ≤ 2 ^ 53 → exact ≤ (K : ℚ) * (2 : ℚ) ^ j →
      value ≤ (K : ℚ) * (2 : ℚ) ^ j) :
    ⌊value⌋ = ⌊exact⌋ ∨ ⌊value⌋ = ⌊exact⌋ + 1 := by
  have hk : 0 ≤ ⌊exact⌋ := Int.floor_nonneg.mpr h0
  obtain ⟨K, hK⟩ := Int.eq_ofNat_of_zero_le hk
  have hK53 : K + 1 ≤ 2 ^ 53 := by
    have : ((K + 1 : Nat) : Int) ≤ 2 ^ 53 := by push_cast; omega
    exact_mod_cast this
  have c1 : (K : ℚ) ≤ exact := by
    have := Int.floor_le exact
    rw [hK] at this
    exact_mod_cast this
  have c2 : exact ≤ ((K + 1 : Nat) : ℚ) := by
    have := Int.lt_floor_add_one exact
    rw [hK] at this
    push_cast at this ⊢
    exact le_of_lt this
  have v1 : (K : ℚ) ≤ value := by
    have := hge K 0 (by omega) (by simpa using c1)
    simpa using this
  have v2 : value ≤ ((K + 1 : Nat) : ℚ) := by
    have := hle (K + 1) 0 hK53 (by simpa using c2)
    simpa using this
  have f1 : (K : Int) ≤ ⌊value⌋ := Int.le_floor.mpr (by exact_mod_cast v1)
  have f2 : ⌊value⌋ ≤ (K : Int) + 1 := by
    have : ⌊value⌋ ≤ ⌊(((K + 1 : Nat) : Int) : ℚ)⌋ := Int.floor_mono (by exact_mod_cast v2)
    rw [Int.floor_intCast] at this
    push_cast at this
    exact this
  rw [hK]
  omega

/-! ## The numbers the code computes against the exact ones -/

section Numbers
variable {T : Type}

/-- The `range` of `query` is `floor(epsilon * n)` or one more: the product is rounded
before it is truncated. -/
theorem range_spec (s : Greenwald_khanna T) (hε : 0 ≤ s.m_epsilon.num) (hd : 0 < s.m_epsilon.den)
    (h0 : 0 ≤ s.m_n) (hn : s.m_n ≤ 2 ^ 53) (hb : ⌊s.epsilon * (s.n : ℚ)⌋ + 1 ≤ 2 ^ 53) :
    s.range = ⌊s.epsilon * (s.n : ℚ)⌋ ∨ s.range = ⌊s.epsilon * (s.n : ℚ)⌋ + 1 := by
  obtain ⟨hnv, hnd⟩ := long_to_double_exact s.m_n (by omega) hn
  have hnn : 0 ≤ (long_to_double s.m_n).num := by
    have hv : (0 : ℚ) ≤ (long_to_double s.m_n).value := by rw [hnv]; exact_mod_cast h0
    unfold Double.value at hv
    have hpos : (0 : ℚ) < ((long_to_double s.m_n).den : ℚ) := by exact_mod_cast hnd
    have := (div_nonneg_iff.mp hv)
    rcases this with ⟨h, _⟩ | ⟨_, h⟩
    · exact_mod_cast h
    · linarith
  obtain ⟨p0, p1, p2, p3⟩ := double_mul_spec s.m_epsilon (long_to_double s.m_n) hε hd hnn hnd
  rw [hnv] at p2 p3
  have hex : (0 : ℚ) ≤ s.epsilon * (s.n : ℚ) := by
    apply mul_nonneg
    · unfold Greenwald_khanna.epsilon Double.value
      exact div_nonneg (by exact_mod_cast hε) (by positivity)
    · exact_mod_cast h0
  have hfl := floor_of_rounded (s.epsilon * (s.n : ℚ))
    (double_mul s.m_epsilon (long_to_double s.m_n)).value hex hb p2 p3
  have hr : s.range = ⌊(double_mul s.m_epsilon (long_to_double s.m_n)).value⌋ := by
    unfold Greenwald_khanna.range
    apply double_to_long_floor _ p0 p1.1
    unfold LONG_MAX
    rcases hfl with h | h <;> omega
  rw [hr]
  exact hfl

/-- The double `2 * m_epsilon * m_n` has a floor of `floor(2 * epsilon * n)` or one more. -/
theorem two_eps_n_double_spec (s : Greenwald_khanna T) (hε0 : 0 ≤ s.m_epsilon.num)
    (hε : s.m_epsilon.is_nonneg_double) (h0 : 0 ≤ s.m_n) (hn : s.m_n ≤ 2 ^ 53)
    (hb : ⌊2 * s.epsilon * (s.n : ℚ)⌋ + 1 ≤ 2 ^ 53) :
    0 ≤ s.two_eps_n_double.num ∧ 0 < s.two_eps_n_double.den ∧
    (⌊s.two_eps_n_double.value⌋ = ⌊2 * s.epsilon * (s.n : ℚ)⌋ ∨
     ⌊s.two_eps_n_double.value⌋ = ⌊2 * s.epsilon * (s.n : ℚ)⌋ + 1) := by
  obtain ⟨hnv, hnd⟩ := long_to_double_exact s.m_n (by omega) hn
  have hnn : 0 ≤ (long_to_double s.m_n).num := by
    have hv : (0 : ℚ) ≤ (long_to_double s.m_n).value := by rw [hnv]; exact_mod_cast h0
    unfold Double.value at hv
    have hpos : (0 : ℚ) < ((long_to_double s.m_n).den : ℚ) := by exact_mod_cast hnd
    rcases div_nonneg_iff.mp hv with ⟨h, _⟩ | ⟨_, h⟩
    · exact_mod_cast h
    · linarith
  obtain ⟨t1, t2, t3⟩ := double_twice s.m_epsilon hε0 hε
  obtain ⟨p0, p1, p2, p3⟩ := double_mul_spec (double_mul (Double.of_int 2) s.m_epsilon)
    (long_to_double s.m_n) t2 t3 hnn hnd
  rw [hnv, t1] at p2 p3
  have hex : (0 : ℚ) ≤ 2 * s.epsilon * (s.n : ℚ) := by
    apply mul_nonneg
    · apply mul_nonneg (by norm_num)
      unfold Greenwald_khanna.epsilon Double.value
      exact div_nonneg (by exact_mod_cast hε0) (by positivity)
    · exact_mod_cast h0
  exact ⟨p0, p1.1, floor_of_rounded _ _ hex hb p2 p3⟩

/-- The capacity `two_eps_n` of `compress` is `floor(2 * epsilon * n)` or one more. -/
theorem two_eps_n_spec (s : Greenwald_khanna T) (hε0 : 0 ≤ s.m_epsilon.num)
    (hε : s.m_epsilon.is_nonneg_double) (h0 : 0 ≤ s.m_n) (hn : s.m_n ≤ 2 ^ 53)
    (hb : ⌊2 * s.epsilon * (s.n : ℚ)⌋ + 1 ≤ 2 ^ 53) :
    s.two_eps_n = ⌊2 * s.epsilon * (s.n : ℚ)⌋ ∨ s.two_eps_n = ⌊2 * s.epsilon * (s.n : ℚ)⌋ + 1 := by
  obtain ⟨p0, p1, hfl⟩ := two_eps_n_double_spec s hε0 hε h0 hn hb
  have hr : s.two_eps_n = ⌊s.two_eps_n_double.value⌋ := by
    unfold Greenwald_khanna.two_eps_n
    apply double_to_long_floor _ p0 p1
    unfold LONG_MAX
    rcases hfl with h | h <;> omega
  rw [hr]
  exact hfl

/-- The delta of a tuple placed inside the sequence after the ramp-up is
`floor(2 * epsilon * n) - 1` or one more. -/
theorem compute_delta_spec (s : Greenwald_khanna T) (it : Nat) (hi0 : it ≠ 0)
    (hi1 : it ≠ s.m_tuples.length) (hper : s.m_one_devide_2e < s.m_n)
    (hε0 : 0 ≤ s.m_epsilon.num) (hε : s.m_epsilon.is_nonneg_double) (h0 : 0 ≤ s.m_n)
    (hn : s.m_n ≤ 2 ^ 53) (hb : ⌊2 * s.epsilon * (s.n : ℚ)⌋ + 1 ≤ 2 ^ 31) :
    compute_delta s it = spec_delta s.epsilon s.n ∨
    compute_delta s it = spec_delta s.epsilon s.n + 1 := by
  obtain ⟨p0, p1, hfl⟩ := two_eps_n_double_spec s hε0 hε h0 hn (by omega)
  have hf0 : 0 ≤ ⌊s.two_eps_n_double.value⌋ := by
    apply Int.floor_nonneg.mpr
    unfold Double.value
    exact div_nonneg (by exact_mod_cast p0) (by positivity)
  have hfloor : double_floor s.two_eps_n_double = ⟨⌊s.two_eps_n_double.value⌋, 1⟩ := by
    unfold double_floor
    rw [if_neg (by omega)]
    unfold Double.value
    rw [Rat.floor_intCast_div_natCast]
  have hsub : double_sub (double_floor s.two_eps_n_double) (Double.of_int 1)
      = long_to_double (⌊s.two_eps_n_double.value⌋ - 1) := by
    rw [hfloor]
    unfold double_sub long_to_double Double.of_int
    simp
  have hbound : ⌊s.two_eps_n_double.value⌋ ≤ 2 ^ 31 := by
    rcases hfl with h | h <;> omega
  obtain ⟨ev, ed⟩ := long_to_double_exact (⌊s.two_eps_n_double.value⌋ - 1) (by omega) (by omega)
  have hd : compute_delta s it = ⌊s.two_eps_n_double.value⌋ - 1 := by
    rw [compute_delta_inside s it hi0 hi1 hper, hsub]
    apply double_to_int_of_int _ ed _ ev
    · unfold INT_MIN; omega
    · unfold INT_MAX; omega
  unfold spec_delta
  rw [hd]
  rcases hfl with h | h
  · left; rw [h]
  · right; rw [h]; ring

/-- The stored period is `floor(1 / (2 * epsilon))` or one more. -/
theorem one_devide_2e_spec (epsilon : Double) (hε0 : 0 < epsilon.num)
    (hε : epsilon.is_nonneg_double) (hb : ⌊1 / (2 * epsilon.value)⌋ + 1 ≤ 2 ^ 31 - 1) :
    one_devide_2e epsilon = ⌊1 / (2 * epsilon.value)⌋ ∨
    one_devide_2e epsilon = ⌊1 / (2 * epsilon.value)⌋ + 1 := by
  obtain ⟨t1, t2, t3⟩ := double_twice epsilon (le_of_lt hε0) hε
  set two_eps := double_mul (Double.of_int 2) epsilon with h2e
  have hvpos : (0 : ℚ) < epsilon.value := by
    unfold Double.value
    exact div_pos (by exact_mod_cast hε0) (by exact_mod_cast hε.1)
  have hnum : 0 < two_eps.num := by
    have hv : (0 : ℚ) < two_eps.value := by rw [t1]; linarith
    unfold Double.value at hv
    have hpos : (0 : ℚ) < (two_eps.den : ℚ) := by exact_mod_cast t3
    rcases div_pos_iff.mp hv with ⟨h, _⟩ | ⟨_, h⟩
    · exact_mod_cast h
    · linarith
  obtain ⟨a, ha⟩ := Int.eq_ofNat_of_zero_le (le_of_lt hnum)
  have ha0 : 0 < a := by omega
  have ediv : double_div (Double.of_int 1) two_eps = round_double (two_eps.den : Int) a := by
    unfold double_div
    rw [if_neg (by omega), if_neg (by omega)]
    simp only [Double.of_int, one_mul]
    rw [ha]
    simp
  have eexact : ((two_eps.den : Nat) : ℚ) / (a : ℚ) = 1 / (2 * epsilon.value) := by
    rw [← t1]
    unfold Double.value
    rw [ha]
    have h1 : (two_eps.den : ℚ) ≠ 0 := by exact_mod_cast (Nat.pos_iff_ne_zero.mp t3)
    have h2 : (a : ℚ) ≠ 0 := by exact_mod_cast (Nat.pos_iff_ne_zero.mp ha0)
    push_cast
    field_simp
  obtain ⟨r0, r1, r2, r3⟩ := round_double_spec two_eps.den a ha0
  rw [eexact] at r2 r3
  have hex : (0 : ℚ) ≤ 1 / (2 * epsilon.value) := by positivity
  have hfl := floor_of_rounded _ _ hex (by omega) r2 r3
  have hr : one_devide_2e epsilon = ⌊(round_double (two_eps.den : Int) a).value⌋ := by
    unfold one_devide_2e
    rw [← h2e, ediv]
    apply double_to_int_floor _ r0 r1.1
    unfold INT_MAX
    rcases hfl with h | h <;> omega
  rw [hr]
  exact hfl

end Numbers

section NumbersInsert
variable {T : Type}

/-- After the ramp-up the delta of a tuple placed inside the sequence is not negative, when
the stored period is the one the constructor computes and fits an `int`. -/
theorem compute_delta_nonneg (s : Greenwald_khanna T) (it : Nat) (hi0 : it ≠ 0)
    (hi1 : it ≠ s.m_tuples.length) (hper : s.m_one_devide_2e < s.m_n)
    (hstored : s.m_one_devide_2e = one_devide_2e s.m_epsilon)
    (hε0 : 0 < s.m_epsilon.num) (hε : s.m_epsilon.is_nonneg_double)
    (hp : ⌊1 / (2 * s.epsilon)⌋ + 1 ≤ 2 ^ 31 - 1)
    (hn : s.m_n ≤ 2 ^ 53) (hb : ⌊2 * s.epsilon * (s.n : ℚ)⌋ + 1 ≤ 2 ^ 31) :
    0 ≤ compute_delta s it := by
  have hvpos : (0 : ℚ) < s.epsilon := by
    unfold Greenwald_khanna.epsilon Double.value
    exact div_pos (by exact_mod_cast hε0) (by exact_mod_cast hε.1)
  have hper' := one_devide_2e_spec s.m_epsilon hε0 hε hp
  have hfl0 : 0 ≤ ⌊1 / (2 * s.epsilon)⌋ := Int.floor_nonneg.mpr (by positivity)
  have hge : ⌊1 / (2 * s.m_epsilon.value)⌋ ≤ s.m_one_devide_2e := by
    rw [hstored]
    rcases hper' with h | h <;> omega
  have hn1 : ⌊1 / (2 * s.epsilon)⌋ + 1 ≤ s.m_n := by
    have : ⌊1 / (2 * s.epsilon)⌋ ≤ s.m_one_devide_2e := hge
    omega
  have h0 : 0 ≤ s.m_n := by omega
  have hlt : 1 / (2 * s.epsilon) < (s.n : ℚ) := by
    have h1 := Int.lt_floor_add_one (1 / (2 * s.epsilon))
    have h2 : ((⌊1 / (2 * s.epsilon)⌋ + 1 : Int) : ℚ) ≤ ((s.m_n : Int) : ℚ) := by
      exact_mod_cast hn1
    push_cast at h2
    exact lt_of_lt_of_le h1 h2
  have hone : (1 : ℚ) ≤ 2 * s.epsilon * (s.n : ℚ) := by
    rw [div_lt_iff₀ (by positivity)] at hlt
    linarith
  have hf1 : 1 ≤ ⌊2 * s.epsilon * (s.n : ℚ)⌋ := Int.le_floor.mpr (by exact_mod_cast hone)
  have hspec := compute_delta_spec s it hi0 hi1 hper (le_of_lt hε0) hε h0 hn hb
  unfold spec_delta at hspec
  rcases hspec with h | h <;> omega

end NumbersInsert

/-! ## The claims -/

section Claims
variable {T : Type} [LinearOrder T]

/-- C1 (failing input): a non-empty stream inserted into a fresh summary yields no summary
for `query` to scan.  The first `insert` runs `find_insert_iterator` on the empty list,
where the function is left without a `return`; so inserting the stream and then querying
returns no tuple, for every epsilon, every stream and every rank. -/
theorem C1_no_summary_to_query (num den : Nat) (values : List T) (rank : Int)
    (h : values ≠ []) :
    (insert_all (Greenwald_khanna.new num den) values).bind (fun s => query s rank)
      = Outcome.undefined Fault.no_return := by
  rw [insert_all_new num den values h, bind_undefined]

/-- Witness for C1: the scenario of the claim, `epsilon = 0.01`, the stream `1..1000`
ascending, `query(500)`. -/
theorem C1_no_summary_to_query_witness :
    ascending_thousand ≠ [] ∧
    (insert_all (Greenwald_khanna.new 1 100) ascending_thousand).bind (fun s => query s 500)
      = Outcome.undefined Fault.no_return :=
  ⟨ascending_thousand_ne_nil,
    C1_no_summary_to_query 1 100 ascending_thousand 500 ascending_thousand_ne_nil⟩

/-- C3 (failing input): the first `insert` into a fresh summary does not complete, so the
sum of `g` never becomes `1` as `n()` is meant to.  And an `insert` that triggers a
compression at a capacity `floor(2 * epsilon * n)` of `2` or more does not complete either,
on any summary and for any value: `compress()` ends before any `g` is moved, on a list of
fewer than two tuples at `std::advance`, else in `create_bands` at the write past the end of
the band table. -/
theorem C3_mass_not_established (num den : Nat) (value : T) :
    insert (Greenwald_khanna.new num den) value = Outcome.undefined Fault.no_return ∧
    ∀ s : Greenwald_khanna T, 0 < s.m_n → s.m_one_devide_2e ≠ 0 →
      Int.tmod s.m_n s.m_one_devide_2e = 0 → 2 ≤ s.two_eps_n →
      ∃ f, insert s value = Outcome.undefined f := by
  refine ⟨insert_new num den value, ?_⟩
  intro s hn hp hdue hc
  unfold insert
  rw [if_pos hn, if_neg hp, if_pos hdue]
  by_cases hl : s.m_tuples.length < 2
  · exact ⟨_, by rw [compress_short s hl, bind_undefined]⟩
  · exact ⟨_, by rw [compress_capacity s (by omega) hc, bind_undefined]⟩

set_option maxRecDepth 100000 in
/-- Witness for C3: `epsilon = 0.1` (stored period `5`); the first insert of `5`, and the
insert of `5` into a summary with count `10` and ten exact tuples, where the capacity
is `2`. -/
theorem C3_mass_not_established_witness :
    insert (Greenwald_khanna.new 1 10) (5 : Int) = Outcome.undefined Fault.no_return ∧
    (0 < (seeded 1 10 10 (exact_tuples [1, 2, 3, 4, 5, 6, 7, 8, 9, 10])).m_n ∧
     (seeded 1 10 10 (exact_tuples [1, 2, 3, 4, 5, 6, 7, 8, 9, 10])).m_one_devide_2e ≠ 0 ∧
     Int.tmod (seeded 1 10 10 (exact_tuples [1, 2, 3, 4, 5, 6, 7, 8, 9, 10])).m_n
       (seeded 1 10 10 (exact_tuples [1, 2, 3, 4, 5, 6, 7, 8, 9, 10])).m_one_devide_2e = 0 ∧
     2 ≤ (seeded 1 10 10 (exact_tuples [1, 2, 3, 4, 5, 6, 7, 8, 9, 10])).two_eps_n) ∧
    ∃ f, insert (seeded 1 10 10 (exact_tuples [1, 2, 3, 4, 5, 6, 7, 8, 9, 10])) 5
      = Outcome.undefined f :=
  ⟨(C3_mass_not_established 1 10 5).1, by decide,
    (C3_mass_not_established 1 10 5).2 _ (by decide) (by decide) (by decide) (by decide)⟩

/-- C4 (failing input): the insert of a value above every stored tuple, a new maximum,
never completes, on any summary: no tuple is ever placed at the tail, so no last tuple
holds the maximum of the values inserted. -/
theorem C4_new_maximum_undefined (s : Greenwald_khanna T) (value : T)
    (h : ∀ t ∈ s.m_tuples, t.v < value) : ∃ f, insert s value = Outcome.undefined f :=
  insert_of_all_lt s value h

set_option maxRecDepth 100000 in
/-- Witness for C4: a summary that holds `1, 2, 3`, and the value `7`. -/
theorem C4_new_maximum_undefined_witness :
    (∀ t ∈ (seeded 1 10 3 (exact_tuples [1, 2, 3])).m_tuples, t.v < 7) ∧
    ∃ f, insert (seeded 1 10 3 (exact_tuples [1, 2, 3])) 7 = Outcome.undefined f :=
  ⟨by decide, C4_new_maximum_undefined _ 7 (by decide)⟩

/-- C5 (failing input): no run of inserts of a non-empty stream into a fresh summary
completes, so no sequence of tuples comes out of it whose order could be examined. -/
theorem C5_no_sequence_from_fresh (num den : Nat) (values : List T) (h : values ≠ []) :
    insert_all (Greenwald_khanna.new num den) values = Outcome.undefined Fault.no_return :=
  insert_all_new num den values h

/-- Witness for C5: `epsilon = 0.1` and the stream `1, 2`. -/
theorem C5_no_sequence_from_fresh_witness :
    ([1, 2] : List Int) ≠ [] ∧
    insert_all (Greenwald_khanna.new 1 10) ([1, 2] : List Int)
      = Outcome.undefined Fault.no_return :=
  ⟨by decide, C5_no_sequence_from_fresh 1 10 [1, 2] (by decide)⟩

/-- C6 (failing input): on the empty list of a fresh summary the loop of
`find_insert_iterator` runs zero times and the function is left without a `return`, so the
first `insert` has no defined position for its tuple. -/
theorem C6_first_insert_without_position (num den : Nat) (value : T) :
    find_insert_iterator (Greenwald_khanna.new num den : Greenwald_khanna T).m_tuples value = none :=
  rfl

/-- C9 (failing input): `find_insert_iterator` is left without a `return` exactly when
every stored tuple is below the value, the case for which the position is said to be the
tail. -/
theorem C9_no_position_at_tail (ts : List (Tuple T)) (value : T) :
    find_insert_iterator ts value = none ↔ ∀ t ∈ ts, t.v < value := by
  induction ts with
  | nil => simp [find_insert_iterator]
  | cons t ts ih =>
    by_cases h : t.v ≥ value
    · simp only [find_insert_iterator, h, if_true, List.mem_cons, forall_eq_or_imp, false_iff,
        not_and, reduceCtorEq]
      intro h'
      exact absurd h' (not_lt.mpr h)
    · simp only [find_insert_iterator, h, if_false, Option.map_eq_none', ih, List.mem_cons,
        forall_eq_or_imp]
      exact ⟨fun h' => ⟨not_le.mp h, h'⟩, fun h' => h'.2⟩

end Claims

set_option maxRecDepth 100000 in
/-- C10 (failing input): the witness of the claim, `epsilon = 0.05` (stored period `10`)
and the five values `4, 1, 5, 3, 2`.  Into a fresh summary the run ends at the first
insert.  Started from the state the first insert is meant to leave (one exact tuple `4`,
count `1`), the insert of `1` completes, at the head, and the run ends at the insert of
`5`, the new maximum. -/
theorem C10_ramp_up_run_undefined :
    (Greenwald_khanna.new 5 100 : Greenwald_khanna Int).m_one_devide_2e = 10 ∧
    insert_all (Greenwald_khanna.new 5 100) ([4, 1, 5, 3, 2] : List Int)
      = Outcome.undefined Fault.no_return ∧
    insert (seeded 5 100 1 (exact_tuples [4])) 1
      = Outcome.done (seeded 5 100 2 (exact_tuples [1, 4])) ∧
    insert (seeded 5 100 2 (exact_tuples [1, 4])) 5 = Outcome.undefined Fault.no_return ∧
    insert_all (seeded 5 100 1 (exact_tuples [4])) [1, 5, 3, 2]
      = Outcome.undefined Fault.no_return := by
  decide

/-! ## Query -/

set_option maxRecDepth 100000 in
/-- C7 as stated fails, under either reading of `epsilon`.  With `epsilon = 0.29` and
`n = 100` the code's `range` is `28`: `query(30)` skips the first tuple, which passes the
test against `0.29 * 100 = 29`, and returns the second.  With `n = 300` the code's `range`
is `87`, above `epsilon() * 300` for the stored double: `query(88)` returns the first tuple,
which fails the test against `epsilon() * n`, while the second tuple passes it. -/
theorem C7_counterexample :
    query (summary_029 100) 30 = Outcome.done (Tuple.new 2 1 0, 2) ∧
    matches_exactly_at (29 / 100) (summary_029 100) 30 0 ∧
    query (summary_029 300) 88 = Outcome.done (Tuple.new 1 1 0, 1) ∧
    ¬ matches_exactly_at (summary_029 300).epsilon (summary_029 300) 88 0 ∧
    matches_exactly_at (summary_029 300).epsilon (summary_029 300) 88 1 := by
  have e : (summary_029 300).epsilon = 5224175567749775 / 18014398509481984 := by
    show (round_double 29 100).value = _
    rw [round_double_029]
    norm_num [Double.value]
  refine ⟨by decide, ?_, by decide, ?_, ?_⟩
  · refine ⟨Tuple.new 1 1 0, rfl, ?_⟩
    norm_num [summary_029, seeded, sum_g, Greenwald_khanna.n, Tuple.new]
  · rintro ⟨t, _, h1, _⟩
    rw [e] at h1
    norm_num [summary_029, seeded, sum_g, Greenwald_khanna.n, Tuple.new] at h1
  · refine ⟨Tuple.new 2 1 0, rfl, ?_⟩
    rw [e]
    norm_num [summary_029, seeded, sum_g, Greenwald_khanna.n, Tuple.new]

/-- C7 (amended): for every summary and every rank, with `range` the `long` that `query`
computes (the double product `m_epsilon * m_n`, rounded, then truncated) and `S_i` the
running sum of `g` in `long`: if some tuple passes the test `rank - S_i <= range` and
`S_i + delta_i - rank <= range`, then `query` returns the tuple with the smallest such
index `i`, and the returned low bound is `S_i`.  For a non-negative `epsilon` and
`0 <= n <= 2^53` with `floor(epsilon * n) < 2^53` that `range` is `floor(epsilon * n)` or
one more. -/
theorem C7_query_returns_first_match {T : Type} (s : Greenwald_khanna T) (rank : Int)
    (h : ∃ i, matches_at s rank i) :
    (∃ i t, s.m_tuples[i]? = some t ∧ matches_at s rank i ∧
      (∀ j, j < i → ¬ matches_at s rank j) ∧
      query s rank = Outcome.done (t, running_sum s.m_tuples i)) ∧
    (0 ≤ s.m_epsilon.num → 0 < s.m_epsilon.den → 0 ≤ s.n → s.n ≤ 2 ^ 53 →
      ⌊s.epsilon * (s.n : ℚ)⌋ + 1 ≤ 2 ^ 53 →
      s.range = ⌊s.epsilon * (s.n : ℚ)⌋ ∨ s.range = ⌊s.epsilon * (s.n : ℚ)⌋ + 1) :=
  ⟨query_first_match s rank h, fun h1 h2 h3 h4 h5 => range_spec s h1 h2 h3 h4 h5⟩

set_option maxRecDepth 100000 in
/-- Witness for C7 (amended): `epsilon = 0.29`, `n = 100`, rank `30`; the tuple at index `1`
passes the test against the code's `range = 28`. -/
theorem C7_query_returns_first_match_witness :
    (∃ i, matches_at (summary_029 100) 30 i) ∧
    ((∃ i t, (summary_029 100).m_tuples[i]? = some t ∧ matches_at (summary_029 100) 30 i ∧
      (∀ j, j < i → ¬ matches_at (summary_029 100) 30 j) ∧
      query (summary_029 100) 30
        = Outcome.done (t, running_sum (summary_029 100).m_tuples i)) ∧
    (0 ≤ (summary_029 100).m_epsilon.num → 0 < (summary_029 100).m_epsilon.den →
      0 ≤ (summary_029 100).n → (summary_029 100).n ≤ 2 ^ 53 →
      ⌊(summary_029 100).epsilon * ((summary_029 100).n : ℚ)⌋ + 1 ≤ 2 ^ 53 →
      (summary_029 100).range = ⌊(summary_029 100).epsilon * ((summary_029 100).n : ℚ)⌋ ∨
      (summary_029 100).range
        = ⌊(summary_029 100).epsilon * ((summary_029 100).n : ℚ)⌋ + 1)) :=
  ⟨⟨1, Tuple.new 2 1 0, rfl, by decide⟩,
    C7_query_returns_first_match (summary_029 100) 30 ⟨1, Tuple.new 2 1 0, rfl, by decide⟩⟩

/-- C16 (failing input): whenever a tuple behind the first passes the merge test of
`compress` with its successor (its band is at most the successor's band in the table of
`create_bands`, and `g + g' + delta'` is below the capacity), `compress` does not complete:
no tuple is ever absorbed into its successor.  At a capacity of `2` or more the run ends in
`create_bands`; at a smaller capacity it ends after `erase(it)`, when the loop steps from
the erased iterator. -/
theorem C16_absorption_never_completes {T : Type} (s : Greenwald_khanna T) (i : Nat)
    (it next_it : Tuple T) (hi : 1 ≤ i) (h1 : s.m_tuples[i]? = some it)
    (h2 : s.m_tuples[i + 1]? = some next_it)
    (hband : band_at (create_bands s.two_eps_n.toNat) it.delta
      ≤ band_at (create_bands s.two_eps_n.toNat) next_it.delta)
    (hcap : wrap_long (wrap_long (it.g + next_it.g) + next_it.delta) < s.two_eps_n) :
    ∃ f, compress s = Outcome.undefined f := by
  cases hc : compress s with
  | undefined f => exact ⟨f, rfl⟩
  | done s' =>
    exfalso
    obtain ⟨_, _, hno⟩ := compress_done_no_merge s s' hc
    exact hno i it next_it hi h1 h2 ⟨hband, hcap⟩

set_option maxRecDepth 100000 in
/-- Witness for C16: `epsilon = 0.1`, `n = 20`, capacity `4`, tuples `1, 2, 3` with `g = 1`
and a last tuple with `g = 17`; the tuple `2` passes the merge test with its successor `3`. -/
theorem C16_absorption_never_completes_witness :
    (1 ≤ 1 ∧ summary_01.m_tuples[1]? = some (Tuple.new 2 1 0) ∧
      summary_01.m_tuples[1 + 1]? = some (Tuple.new 3 1 0) ∧
      band_at (create_bands summary_01.two_eps_n.toNat) (Tuple.new (2 : Int) 1 0).delta
        ≤ band_at (create_bands summary_01.two_eps_n.toNat) (Tuple.new (3 : Int) 1 0).delta ∧
      wrap_long (wrap_long ((Tuple.new (2 : Int) 1 0).g + (Tuple.new (3 : Int) 1 0).g)
        + (Tuple.new (3 : Int) 1 0).delta) < summary_01.two_eps_n) ∧
    ∃ f, compress summary_01 = Outcome.undefined f :=
  ⟨⟨by decide, by decide, by decide, by decide, by decide⟩,
    C16_absorption_never_completes summary_01 1 (Tuple.new 2 1 0) (Tuple.new 3 1 0)
      (by decide) (by decide) (by decide) (by decide) (by decide)⟩

/-- C17 (failing input): on every summary with at least two tuples and a capacity
`floor(2 * epsilon * n)` of `2` or more, `compress` does not complete: `create_bands` runs
its pass `alpha = 0` with `1 << (alpha - 1)`, and the inner loop writes past the end of the
band table.  No summary comes back whose first and last tuple could be compared with the
original. -/
theorem C17_compress_undefined_from_capacity_two {T : Type} (s : Greenwald_khanna T)
    (h : 2 ≤ s.m_tuples.length) (hc : 2 ≤ s.two_eps_n) :
    compress s = Outcome.undefined Fault.out_of_bounds :=
  compress_capacity s h hc

set_option maxRecDepth 100000 in
/-- Witness for C17: `epsilon = 0.25`, `n = 4`, four exact tuples; the capacity is `2`. -/
theorem C17_compress_undefined_from_capacity_two_witness :
    (2 ≤ (seeded 1 4 4 (exact_tuples [1, 2, 3, 4])).m_tuples.length ∧
      2 ≤ (seeded 1 4 4 (exact_tuples [1, 2, 3, 4])).two_eps_n) ∧
    compress (seeded 1 4 4 (exact_tuples [1, 2, 3, 4]))
      = Outcome.undefined Fault.out_of_bounds :=
  ⟨⟨by decide, by decide⟩,
    C17_compress_undefined_from_capacity_two _ (by decide) (by decide)⟩

/-! ## The new tuple of `insert` -/

set_option maxRecDepth 100000 in
/-- C15 as stated fails.  With `epsilon = 0.072` (stored period `6`) a value placed between
two tuples gets, at `n = 125`, the delta `17`, where `floor(2 * epsilon() * n) - 1` is `16`
for the stored double; at `n = 375` the delta `52`, where `floor(2 * 0.072 * n) - 1` is
`53`; and at `n = 2^40` the delta `-2147483648`, which is not `>= 0`. -/
theorem C15_counterexample :
    (summary_072 125).m_one_devide_2e = 6 ∧
    insert (summary_072 125) 2 = Outcome.done
      (seeded 72 1000 126 [Tuple.new 1 1 0, Tuple.new 2 1 17, Tuple.new 3 124 0]) ∧
    spec_delta (summary_072 125).epsilon 125 = 16 ∧
    insert (summary_072 375) 2 = Outcome.done
      (seeded 72 1000 376 [Tuple.new 1 1 0, Tuple.new 2 1 52, Tuple.new 3 374 0]) ∧
    spec_delta (72 / 1000) 375 = 53 ∧
    insert (summary_072 1099511627776) 2 = Outcome.done
      (seeded 72 1000 1099511627777
        [Tuple.new 1 1 0, Tuple.new 2 1 (-2147483648), Tuple.new 3 1099511627775 0]) := by
  have e : (summary_072 125).epsilon = 5188146770730811 / 72057594037927936 := by
    show (round_double 72 1000).value = _
    rw [round_double_072]
    norm_num [Double.value]
  refine ⟨by decide, by decide, ?_, by decide, ?_, by decide⟩
  · rw [e]
    unfold spec_delta
    have : ⌊(2 : ℚ) * (5188146770730811 / 72057594037927936) * ((125 : Int) : ℚ)⌋ = 17 := by
      rw [Int.floor_eq_iff]
      norm_num
    rw [this]
    norm_num
  · unfold spec_delta
    have : ⌊(2 : ℚ) * (72 / 1000) * ((375 : Int) : ℚ)⌋ = 54 := by
      rw [Int.floor_eq_iff]
      norm_num
    rw [this]
    norm_num

/-- C15 (amended): for every summary and value for which `insert` completes, the new tuple
`(value, 1, d)` stands behind the tuples below `value` and before the first tuple at or
above it, in the sequence as it was; `d` is `0` when the tuple is placed at the head, `0`
when `n` is at most the stored period, and `(int)(floor(2 * epsilon * n) - 1)`, computed in
doubles, when the tuple is placed behind the head and `n` exceeds the stored period.  For a
non-negative double `epsilon` and `0 <= n <= 2^53` with `floor(2 * epsilon * n) < 2^31`
that value is `floor(2 * epsilon * n) - 1` or one more; it is `>= 0` when moreover
`epsilon > 0`, the stored period is the one the constructor computes and
`floor(1 / (2 * epsilon)) <= 2^31 - 2`.  A placement at the tail never completes. -/
theorem C15_delta_rule {T : Type} [LinearOrder T] (s s' : Greenwald_khanna T) (value : T)
    (h : insert s value = Outcome.done s') :
    ∃ pre t post d, s.m_tuples = pre ++ t :: post ∧ (∀ u ∈ pre, u.v < value) ∧ value ≤ t.v ∧
      s'.m_tuples = pre ++ Tuple.new value 1 d :: t :: post ∧
      (pre = [] → d = 0) ∧ (s.n ≤ s.m_one_devide_2e → d = 0) ∧
      (pre ≠ [] → s.m_one_devide_2e < s.n →
        d = double_to_int (double_sub (double_floor s.two_eps_n_double) (Double.of_int 1)) ∧
        (0 ≤ s.m_epsilon.num → s.m_epsilon.is_nonneg_double → 0 ≤ s.n → s.n ≤ 2 ^ 53 →
          ⌊2 * s.epsilon * (s.n : ℚ)⌋ + 1 ≤ 2 ^ 31 →
          (d = spec_delta s.epsilon s.n ∨ d = spec_delta s.epsilon s.n + 1) ∧
          (s.m_one_devide_2e = one_devide_2e s.m_epsilon → 0 < s.m_epsilon.num →
            ⌊1 / (2 * s.epsilon)⌋ + 1 ≤ 2 ^ 31 - 1 → 0 ≤ d))) := by
  obtain ⟨pre, t, post, e, hpre, ht, e', _⟩ := insert_shape s s' value h
  refine ⟨pre, t, post, compute_delta s pre.length, e, hpre, ht, e', ?_, ?_, ?_⟩
  · intro hp
    rw [hp]
    exact compute_delta_head s
  · intro hn
    exact compute_delta_ramp_up s _ hn
  · intro hp hper
    have hi0 : pre.length ≠ 0 := by
      intro hc
      exact hp (List.length_eq_zero.mp hc)
    have hi1 : pre.length ≠ s.m_tuples.length := by
      rw [e]
      simp
    refine ⟨compute_delta_inside s _ hi0 hi1 hper, ?_⟩
    intro h1 h2 h3 h4 h5
    refine ⟨compute_delta_spec s _ hi0 hi1 hper h1 h2 h3 h4 h5, ?_⟩
    intro h6 h7 h8
    exact compute_delta_nonneg s _ hi0 hi1 hper h6 h7 h2 h8 h4 h5

set_option maxRecDepth 100000 in
/-- Witness for C15 (amended): `epsilon = 0.072`, `n = 125`, the tuples `1` and `3`, and the
value `2`, which is placed between them. -/
theorem C15_delta_rule_witness :
    insert (summary_072 125) 2 = Outcome.done
      (seeded 72 1000 126 [Tuple.new 1 1 0, Tuple.new 2 1 17, Tuple.new 3 124 0]) ∧
    ∃ pre t post d, (summary_072 125).m_tuples = pre ++ t :: post ∧ (∀ u ∈ pre, u.v < 2) ∧
      2 ≤ t.v ∧
      (seeded 72 1000 126 [Tuple.new 1 1 0, Tuple.new 2 1 17, Tuple.new 3 124 0]).m_tuples
        = pre ++ Tuple.new 2 1 d :: t :: post ∧
      (pre = [] → d = 0) ∧ ((summary_072 125).n ≤ (summary_072 125).m_one_devide_2e → d = 0) ∧
      (pre ≠ [] → (summary_072 125).m_one_devide_2e < (summary_072 125).n →
        d = double_to_int
          (double_sub (double_floor (summary_072 125).two_eps_n_double) (Double.of_int 1)) ∧
        (0 ≤ (summary_072 125).m_epsilon.num → (summary_072 125).m_epsilon.is_nonneg_double →
          0 ≤ (summary_072 125).n → (summary_072 125).n ≤ 2 ^ 53 →
          ⌊2 * (summary_072 125).epsilon * ((summary_072 125).n : ℚ)⌋ + 1 ≤ 2 ^ 31 →
          (d = spec_delta (summary_072 125).epsilon (summary_072 125).n ∨
            d = spec_delta (summary_072 125).epsilon (summary_072 125).n + 1) ∧
          ((summary_072 125).m_one_devide_2e = one_devide_2e (summary_072 125).m_epsilon →
            0 < (summary_072 125).m_epsilon.num →
            ⌊1 / (2 * (summary_072 125).epsilon)⌋ + 1 ≤ 2 ^ 31 - 1 → 0 ≤ d))) :=
  ⟨by decide, C15_delta_rule (summary_072 125) _ 2 (by decide)⟩

/-- C13 (failing input): at capacity `2` and at capacity `4` the loop of `create_bands`
stops before the last band (`alpha < ceil(log2(capacity))`), so the deltas that the band rule
puts in band `1` (capacity `2`) and band `2` (capacity `4`) keep the initial `0`. -/
theorem C13_bands_at_powers_of_two :
    create_bands 2 = [LONG_MAX, 0, 0] ∧ spec_in_band 2 1 1 ∧
    create_bands 4 = [LONG_MAX, 0, 0, 1, 0] ∧ spec_in_band 4 2 1 ∧ spec_in_band 4 2 2 ∧
    spec_in_band 4 1 3 := by
  decide

/-- C14 (failing input): at capacity `4` the table gives delta `1` band `0` and delta `3`
band `1`, and at capacity `8` it gives delta `1` band `0` and delta `5` band `2`: the
smaller delta has the smaller band. -/
theorem C14_bands_not_monotone :
    band_at (create_bands 4) 1 = 0 ∧ band_at (create_bands 4) 3 = 1 ∧
    band_at (create_bands 8) 1 = 0 ∧ band_at (create_bands 8) 5 = 2 := by
  decide

/-! ## The band table -/

theorem assign_band_length (bands : List Int) (low_bound high_bound : Int) (alpha : Nat) :
    (assign_band bands low_bound high_bound alpha).length = bands.length := by
  simp [assign_band]

theorem band_pass_length (p : Nat) (bands : List Int) (alpha : Nat) :
    (band_pass p bands alpha).length = bands.length := by
  simp [band_pass, assign_band_length]

theorem create_bands_length (p : Nat) : (create_bands p).length = p + 1 := by
  have key : ∀ (alphas : List Nat) (bands : List Int),
      (alphas.foldl (band_pass p) bands).length = bands.length := by
    intro alphas
    induction alphas with
    | nil => intro bands; rfl
    | cons x xs ih => intro bands; rw [List.foldl_cons, ih, band_pass_length]
  simp [create_bands, key]


/-! ## The band table against the band rule -/

theorem assign_band_getElem? (bands : List Int) (low_bound high_bound : Int) (alpha i : Nat) :
    (assign_band bands low_bound high_bound alpha)[i]? =
      bands[i]?.map fun x =>
        if low_bound + 1 ≤ (i : Int) ∧ (i : Int) ≤ high_bound then (alpha : Int) else x := by
  unfold assign_band
  rw [List.getElem?_map, List.getElem?_enum]
  cases bands[i]? <;> rfl

theorem band_pass_getElem? (p : Nat) (bands : List Int) (alpha i : Nat) :
    (band_pass p bands alpha)[i]? =
      bands[i]?.map fun x => if pass_writes p alpha i then (alpha : Int) else x := by
  unfold band_pass pass_writes
  exact assign_band_getElem? _ _ _ _ _

theorem foldl_band_pass_getElem? (p : Nat) (alphas : List Nat) (bands : List Int) (i : Nat) :
    (alphas.foldl (band_pass p) bands)[i]? =
      bands[i]?.map fun x =>
        alphas.foldl (fun y alpha => if pass_writes p alpha i then (alpha : Int) else y) x := by
  induction alphas generalizing bands with
  | nil => simp
  | cons a as ih =>
    rw [List.foldl_cons, ih, band_pass_getElem?]
    cases bands[i]? <;> rfl

/-- The entry of the table at an index `1..p`: the initial `0`, overwritten by each pass
that writes the index. -/
theorem create_bands_getElem? (p i : Nat) (h1 : 1 ≤ i) (h2 : i ≤ p) :
    (create_bands p)[i]? = some ((List.range (ceil_log2 p)).foldl
      (fun y alpha => if pass_writes p alpha i then (alpha : Int) else y) 0) := by
  unfold create_bands
  simp only []
  rw [foldl_band_pass_getElem?]
  have h0 : (((List.replicate (p + 1) (0 : Int)).set p 0).set 0 LONG_MAX)[i]? = some 0 := by
    rw [List.getElem?_set_ne (by omega)]
    rw [List.getElem?_set]
    split
    · simp
    · rw [List.getElem?_replicate_of_lt (by omega)]
  rw [h0]
  rfl

/-- A fold that keeps the last index passing a test returns the greatest such index. -/
theorem foldl_range_last (P : Nat → Prop) [DecidablePred P] (A : Nat) (x0 : Int) :
    ((∀ alpha, alpha < A → ¬ P alpha) →
      (List.range A).foldl (fun y alpha => if P alpha then (alpha : Int) else y) x0 = x0) ∧
    (∀ alpha0, alpha0 < A → P alpha0 → (∀ alpha, alpha0 < alpha → alpha < A → ¬ P alpha) →
      (List.range A).foldl (fun y alpha => if P alpha then (alpha : Int) else y) x0 = alpha0) := by
  induction A with
  | zero => exact ⟨fun _ => rfl, fun alpha0 h => absurd h (Nat.not_lt_zero _)⟩
  | succ A ih =>
    obtain ⟨ih1, ih2⟩ := ih
    rw [List.range_succ, List.foldl_append]
    simp only [List.foldl_cons, List.foldl_nil]
    constructor
    · intro h
      rw [if_neg (h A (Nat.lt_succ_self A))]
      exact ih1 (fun alpha ha => h alpha (Nat.lt_succ_of_lt ha))
    · intro alpha0 h0 hP hlast
      by_cases hA : P A
      · rw [if_pos hA]
        by_cases e : alpha0 = A
        · rw [e]
        · exact absurd hA (hlast A (by omega) (Nat.lt_succ_self A))
      · rw [if_neg hA]
        have hne : alpha0 ≠ A := fun e => hA (e ▸ hP)
        exact ih2 alpha0 (by omega) hP (fun alpha h1 h2 => hlast alpha h1 (Nat.lt_succ_of_lt h2))

theorem shl_one_natCast (alpha : Nat) (h : alpha ≤ 30) :
    shl_one (alpha : Int) = ((2 ^ alpha : Nat) : Int) := by
  unfold shl_one
  have e : (alpha : Int) % 32 = (alpha : Int) := Int.emod_eq_of_lt (by omega) (by omega)
  rw [e, if_neg (by omega)]
  simp

theorem shl_one_pred (alpha : Nat) (h : 1 ≤ alpha) (h31 : alpha ≤ 31) :
    shl_one ((alpha : Int) - 1) = ((2 ^ (alpha - 1) : Nat) : Int) := by
  have e : (alpha : Int) - 1 = ((alpha - 1 : Nat) : Int) := by omega
  rw [e, shl_one_natCast _ (by omega)]

/-- Inside the vector, a pass `alpha ≤ 30` of the loop writes exactly the indices of its
band. -/
theorem pass_writes_iff (p alpha i : Nat) (hp : 1 ≤ p) (hi : i ≤ p) (ha : alpha ≤ 30) :
    pass_writes p alpha i ↔
      spec_band_low p alpha < (i : Int) ∧ (i : Int) ≤ spec_band_high p alpha := by
  unfold pass_writes spec_band_low spec_band_high
  simp only []
  rcases Nat.eq_zero_or_pos alpha with h0 | h0
  · subst h0
    have e1 : shl_one ((0 : Nat) : Int) = 1 := by decide
    have e2 : shl_one (((0 : Nat) : Int) - 1) = -2147483648 := by decide
    rw [e1, e2, Int.tmod_one, Int.tmod_neg]
    have e3 : Int.tmod (p : Int) 2147483648 = ((p % 2147483648 : Nat) : Int) := rfl
    rw [e3]
    have hm := Nat.mod_le p 2147483648
    simp only [pow_zero, Nat.mod_one, if_true]
    push_cast
    constructor
    · rintro ⟨h1, _⟩
      split at h1 <;> omega
    · rintro ⟨h1, _⟩
      refine ⟨?_, by omega⟩
      split <;> omega
  · have hne : alpha ≠ 0 := by omega
    rw [shl_one_natCast alpha ha, shl_one_pred alpha h0 (by omega), if_neg hne]
    have e1 : Int.tmod (p : Int) ((2 ^ alpha : Nat) : Int) = ((p % 2 ^ alpha : Nat) : Int) := rfl
    have e2 : Int.tmod (p : Int) ((2 ^ (alpha - 1) : Nat) : Int)
        = ((p % 2 ^ (alpha - 1) : Nat) : Int) := rfl
    rw [e1, e2]
    constructor
    · rintro ⟨h1, h2⟩
      refine ⟨?_, h2⟩
      split at h1
      · rw [max_eq_left (by omega)]; omega
      · rw [max_eq_right (by omega)]; omega
    · rintro ⟨h1, h2⟩
      refine ⟨?_, h2⟩
      split
      · rw [max_eq_left (by omega)] at h1; omega
      · rw [max_eq_right (by omega)] at h1; omega

theorem spec_band_cut_succ_le (p alpha : Nat) :
    spec_band_cut p (alpha + 1) ≤ spec_band_cut p alpha := by
  unfold spec_band_cut
  have h1 := Nat.div_add_mod p (2 ^ alpha)
  have h2 := Nat.div_add_mod p (2 ^ (alpha + 1))
  have h3 : p / 2 ^ (alpha + 1) = p / 2 ^ alpha / 2 := by
    rw [pow_succ, Nat.div_div_eq_div_mul]
  have h4 : 2 * (p / 2 ^ alpha / 2) ≤ p / 2 ^ alpha := Nat.mul_div_le _ 2
  have h5 : 2 ^ alpha * (2 * (p / 2 ^ alpha / 2)) ≤ 2 ^ alpha * (p / 2 ^ alpha) :=
    Nat.mul_le_mul_left _ h4
  have h6 : 2 ^ (alpha + 1) * (p / 2 ^ (alpha + 1)) = 2 ^ alpha * (2 * (p / 2 ^ alpha / 2)) := by
    rw [h3, pow_succ]; ring
  have h7 : 2 ^ (alpha + 1) = 2 * 2 ^ alpha := by rw [pow_succ]; ring
  rw [h6] at h2
  have hpos : 0 < 2 ^ alpha := Nat.two_pow_pos alpha
  generalize 2 ^ alpha * (2 * (p / 2 ^ alpha / 2)) = X at h2 h5
  generalize 2 ^ alpha * (p / 2 ^ alpha) = Y at h1 h5
  generalize p % 2 ^ (alpha + 1) = r1 at h2
  generalize p % 2 ^ alpha = r0 at h1
  rw [h7]
  generalize 2 ^ alpha = m at hpos
  push_cast
  omega

theorem spec_band_cut_antitone (p : Nat) {alpha beta : Nat} (h : alpha ≤ beta) :
    spec_band_cut p beta ≤ spec_band_cut p alpha := by
  induction beta with
  | zero =>
    have : alpha = 0 := by omega
    rw [this]
  | succ b ih =>
    rcases Nat.lt_or_ge alpha (b + 1) with h1 | h1
    · exact le_trans (spec_band_cut_succ_le p b) (ih (by omega))
    · have : alpha = b + 1 := by omega
      rw [this]

theorem spec_band_low_eq (p alpha : Nat) : spec_band_low p alpha = max 0 (spec_band_cut p alpha) :=
  rfl

theorem spec_band_high_succ (p alpha : Nat) :
    spec_band_high p (alpha + 1) = spec_band_cut p alpha := by
  simp [spec_band_high, spec_band_cut]

/-- The bands of the band rule do not overlap. -/
theorem spec_in_band_unique (p alpha beta : Nat) (d : Int) (h1 : spec_in_band p alpha d)
    (h2 : spec_in_band p beta d) : alpha = beta := by
  have key : ∀ a b : Nat, a < b → spec_in_band p a d → spec_in_band p b d → False := by
    intro a b hab ha hb
    obtain ⟨_, ha1, _⟩ := ha
    obtain ⟨_, _, hb2⟩ := hb
    obtain ⟨c, rfl⟩ : ∃ c, b = c + 1 := ⟨b - 1, by omega⟩
    rw [spec_band_high_succ] at hb2
    have h3 := spec_band_cut_antitone p (show a ≤ c by omega)
    rw [spec_band_low_eq] at ha1
    have h4 := le_max_right 0 (spec_band_cut p a)
    omega
  rcases Nat.lt_trichotomy alpha beta with h | h | h
  · exact absurd (key alpha beta h h1 h2) id
  · exact h
  · exact absurd (key beta alpha h h2 h1) id

theorem ceil_log2_aux_spec (p : Nat) (fuel alpha : Nat) (h : p ≤ 2 ^ (alpha + fuel)) :
    p ≤ 2 ^ ceil_log2_aux p fuel alpha := by
  induction fuel generalizing alpha with
  | zero => simpa [ceil_log2_aux] using h
  | succ f ih =>
    unfold ceil_log2_aux
    split
    · assumption
    · apply ih
      have e : alpha + 1 + f = alpha + (f + 1) := by omega
      rw [e]; exact h

theorem le_two_pow_ceil_log2 (p : Nat) : p ≤ 2 ^ ceil_log2 p := by
  apply ceil_log2_aux_spec
  rw [Nat.zero_add]
  exact le_of_lt (Nat.lt_two_pow p)

theorem spec_band_cut_nonpos (p c : Nat) (h : p < 2 * 2 ^ c) : spec_band_cut p c ≤ 0 := by
  unfold spec_band_cut
  have hpos : 0 < 2 ^ c := Nat.two_pow_pos c
  have h1 := Nat.div_add_mod p (2 ^ c)
  have hq : p / 2 ^ c < 2 := (Nat.div_lt_iff_lt_mul hpos).mpr h
  have h2 : 2 ^ c * (p / 2 ^ c) ≤ 2 ^ c * 1 := Nat.mul_le_mul_left _ (by omega)
  rw [Nat.mul_one] at h2
  generalize 2 ^ c * (p / 2 ^ c) = X at h1 h2
  generalize p % 2 ^ c = r at h1
  generalize 2 ^ c = m at h2
  omega

/-- A band with `2^alpha` above the capacity holds no delta `≥ 1`. -/
theorem spec_band_empty (p a : Nat) (d : Int) (hp : 1 ≤ p) (hlt : p < 2 ^ a) (hd : 1 ≤ d) :
    ¬ (spec_band_low p a < d ∧ d ≤ spec_band_high p a) := by
  rintro ⟨_, h2⟩
  rcases Nat.eq_zero_or_pos a with ha0 | ha0
  · subst ha0; simp at hlt; omega
  · obtain ⟨c, rfl⟩ : ∃ c, a = c + 1 := ⟨a - 1, by omega⟩
    rw [spec_band_high_succ] at h2
    have := spec_band_cut_nonpos p c (by rw [pow_succ] at hlt; omega)
    omega

theorem ceil_log2_aux_le (p k : Nat) (hk : p ≤ 2 ^ k) (fuel alpha : Nat) (h : alpha ≤ k) :
    ceil_log2_aux p fuel alpha ≤ k := by
  induction fuel generalizing alpha with
  | zero => simpa [ceil_log2_aux] using h
  | succ f ih =>
    unfold ceil_log2_aux
    split
    · exact h
    · rename_i hlt
      apply ih
      by_contra hc
      have : k ≤ alpha := by omega
      exact hlt (le_trans hk (Nat.pow_le_pow_right (by decide) this))

theorem ceil_log2_le (p k : Nat) (hk : p ≤ 2 ^ k) : ceil_log2 p ≤ k :=
  ceil_log2_aux_le p k hk p 0 (Nat.zero_le k)

/-- The table of `create_bands` against the band rule, for a capacity up to `2^31`: a delta
in band `alpha` of the rule has table entry `alpha` when the loop reaches `alpha`, and the
initial `0` otherwise. -/
theorem create_bands_entry (p d alpha : Nat) (hp31 : p ≤ 2 ^ 31) (h1 : 1 ≤ d) (h2 : d ≤ p)
    (h : spec_in_band p alpha (d : Int)) :
    band_at (create_bands p) (d : Int) = if alpha < ceil_log2 p then (alpha : Int) else 0 := by
  have hp : 1 ≤ p := by omega
  have hmax : ceil_log2 p ≤ 31 := ceil_log2_le p 31 hp31
  unfold band_at
  rw [Int.toNat_ofNat, List.getD_eq_getElem?_getD, create_bands_getElem? p d h1 h2, Option.getD_some]
  obtain ⟨hf1, hf2⟩ := foldl_range_last (fun a => pass_writes p a d) (ceil_log2 p) 0
  have hw : ∀ a, a < ceil_log2 p → pass_writes p a d → 2 ^ a ≤ p → a = alpha := by
    intro a ha31 ha hle
    exact spec_in_band_unique p a alpha d
      ⟨hle, (pass_writes_iff p a d hp h2 (by omega)).mp ha⟩ h
  have hpow : ∀ a, a < ceil_log2 p → pass_writes p a d → 2 ^ a ≤ p := by
    intro a ha31 ha
    by_contra hlt
    exact spec_band_empty p a d hp (not_le.mp hlt) (by exact_mod_cast h1)
      ((pass_writes_iff p a d hp h2 (by omega)).mp ha)
  split
  · rename_i hlt
    apply hf2 alpha hlt ((pass_writes_iff p alpha d hp h2 (by omega)).mpr ⟨h.2.1, h.2.2⟩)
    intro a h3 h4 ha
    have := hw a h4 ha (hpow a h4 ha)
    omega
  · rename_i hge
    apply hf1
    intro a h4 ha
    have := hw a h4 ha (hpow a h4 ha)
    omega

/-- Where the table of `create_bands` follows the band rule and where it does not, for a
capacity up to `2^31`: a delta in band `alpha` of the rule has table entry `alpha`, unless
the capacity is the power of two `2^alpha` with `alpha ≥ 1`, where the entry is the
initial `0`. -/
theorem create_bands_vs_rule (p d alpha : Nat) (hp31 : p ≤ 2 ^ 31) (h1 : 1 ≤ d) (h2 : d ≤ p)
    (h : spec_in_band p alpha (d : Int)) :
    ((p ≠ 2 ^ alpha ∨ alpha = 0) → band_at (create_bands p) (d : Int) = (alpha : Int)) ∧
    (p = 2 ^ alpha → band_at (create_bands p) (d : Int) = if alpha = 0 then (alpha : Int) else 0) := by
  rw [create_bands_entry p d alpha hp31 h1 h2 h]
  constructor
  · rintro (hne | h0)
    · rw [if_pos]
      by_contra hc
      have h3 : ceil_log2 p ≤ alpha := by omega
      have h4 := le_two_pow_ceil_log2 p
      have h5 : 2 ^ ceil_log2 p ≤ 2 ^ alpha := Nat.pow_le_pow_right (by decide) h3
      exact hne (le_antisymm (le_trans h4 h5) h.1)
    · subst h0
      split <;> rfl
  · intro hp
    have h3 : ceil_log2 p ≤ alpha := ceil_log2_le p alpha (by rw [hp])
    rw [if_neg (by omega)]
    split
    · rename_i h0; rw [h0]; rfl
    · rfl

/-- Every delta `1..capacity` lies in a band of the band rule. -/
theorem spec_in_band_exists (p d : Nat) (h1 : 1 ≤ d) (h2 : d ≤ p) :
    ∃ alpha, spec_in_band p alpha (d : Int) := by
  have key : ∀ j, 2 ^ j ≤ p → ∀ d : Nat, spec_band_low p j < (d : Int) → d ≤ p →
      ∃ alpha, spec_in_band p alpha (d : Int) := by
    intro j
    induction j with
    | zero =>
      intro hj d hd hdp
      refine ⟨0, hj, hd, ?_⟩
      simp only [spec_band_high, if_true]
      exact_mod_cast hdp
    | succ j ih =>
      intro hj d hd hdp
      have hj' : 2 ^ j ≤ p := le_trans (Nat.pow_le_pow_right (by decide) (Nat.le_succ j)) hj
      by_cases hc : (d : Int) ≤ spec_band_cut p j
      · exact ⟨j + 1, hj, hd, by rw [spec_band_high_succ]; exact hc⟩
      · apply ih hj' d _ hdp
        rw [spec_band_low_eq] at hd ⊢
        have h0 := le_max_left (0 : Int) (spec_band_cut p (j + 1))
        apply max_lt <;> omega
  obtain ⟨K, hK1, hK2⟩ : ∃ K, 2 ^ K ≤ p ∧ p < 2 * 2 ^ K := by
    refine ⟨Nat.log 2 p, Nat.pow_log_le_self 2 (by omega), ?_⟩
    have := Nat.lt_pow_succ_log_self (show 1 < 2 by decide) p
    rw [pow_succ] at this
    omega
  apply key K hK1 d _ h2
  rw [spec_band_low_eq]
  have := spec_band_cut_nonpos p K hK2
  rw [max_eq_left this]
  exact_mod_cast h1

/-- At a capacity up to `2^31` that is not a power of two the table of `create_bands` is
monotone over the deltas `1..capacity`. -/
theorem create_bands_monotone (p d1 d2 : Nat) (hp31 : p ≤ 2 ^ 31) (hp : ∀ k, p ≠ 2 ^ k)
    (h1 : 1 ≤ d1) (h12 : d1 ≤ d2) (h2 : d2 ≤ p) :
    band_at (create_bands p) (d2 : Int) ≤ band_at (create_bands p) (d1 : Int) := by
  obtain ⟨a1, ha1⟩ := spec_in_band_exists p d1 h1 (by omega)
  obtain ⟨a2, ha2⟩ := spec_in_band_exists p d2 (by omega) h2
  rw [(create_bands_vs_rule p d1 a1 hp31 h1 (by omega) ha1).1 (Or.inl (hp a1)),
    (create_bands_vs_rule p d2 a2 hp31 (by omega) h2 ha2).1 (Or.inl (hp a2))]
  by_contra hc
  have hlt : a1 < a2 := by omega
  obtain ⟨c, rfl⟩ : ∃ c, a2 = c + 1 := ⟨a2 - 1, by omega⟩
  have h3 := ha2.2.2
  rw [spec_band_high_succ] at h3
  have h4 := spec_band_cut_antitone p (show a1 ≤ c by omega)
  have h5 := ha1.2.1
  rw [spec_band_low_eq] at h5
  have h6 := le_max_right 0 (spec_band_cut p a1)
  omega


end GK
